import Mathlib

/-!
Verification of the Pathfinder local file-search engine.

This file gives a shallow embedding of the engine's query parser
(`query.py`), per-file matcher and coordinator (`search.py`), and traversal
(`utils.py`), and proves the central behavioural properties of the engine
against it.

Modelling conventions:
* Python strings are Lean `String` (a structure over `List Char`); the
  Python `str.lower` / `str.casefold` normalisations are modelled by the
  ASCII lowering `strLower` (the inputs of interest are ASCII).
* The regular expressions `QUOTED_RE`, `EXT_RE`, `TYPE_RE` of `query.py`
  are implemented directly as character-list scanners with the exact
  semantics of those patterns.
* Filesystem I/O is an oracle: a `PFile` carries the answers of
  `stat` / `open` / `read` / `resolve` for one file, with `none` meaning
  the call raises.  Directory trees are the inductive `Entry`.
* `time.monotonic()` is an oracle `clock : Nat → Int` of integer ticks;
  every call of `time.monotonic()` in the source consumes one index, in
  program order, threaded through the coordinator state.
* The worker pool of the content-scanning path evaluates the pure
  `evaluate_path`; the nondeterministic completion order of
  `as_completed` is an oracle `reorder` applied to each drained batch.
-/

namespace Pathfinder

/-! ### Python string primitives -/

/-- ASCII lowering of one character, as `str.lower` acts on ASCII. -/
def lowerChar (c : Char) : Char :=
  if 65 ≤ c.toNat && c.toNat ≤ 90 then Char.ofNat (c.toNat + 32) else c

/-- Python `s.lower()` (ASCII fragment). -/
def strLower (s : String) : String := ⟨s.data.map lowerChar⟩

/-- The whitespace class of Python's `str.strip` and `\s` (ASCII fragment). -/
def isPyWs (c : Char) : Bool :=
  c == ' ' || c == '\t' || c == '\n' || c == '\r' || c == '\x0b' || c == '\x0c'

/-- Python `s.strip()` on the character list. -/
def stripChars (l : List Char) : List Char :=
  ((l.dropWhile isPyWs).reverse.dropWhile isPyWs).reverse

/-- Python `s.strip()`. -/
def pyStrip (s : String) : String := ⟨stripChars s.data⟩

/-- Does `needle` occur at the head of `hay`? -/
def seqStarts : List Char → List Char → Bool
  | [], _ => true
  | _ :: _, [] => false
  | a :: as, b :: bs => a == b && seqStarts as bs

/-- Python `needle in hay` for strings: substring occurrence. -/
def seqContains : List Char → List Char → Bool
  | [], needle => needle.isEmpty
  | l@(_ :: t), needle => seqStarts needle l || seqContains t needle

/-- Python `needle in hay` on `String`. -/
def strContainsSub (hay needle : String) : Bool := seqContains hay.data needle.data

/-- Lexicographic (code-point) comparison of character lists, Python `<=` on `str`. -/
def lexLe : List Char → List Char → Bool
  | [], _ => true
  | _ :: _, [] => false
  | a :: as, b :: bs => if a < b then true else if b < a then false else lexLe as bs

/-- Python `<=` on strings (code-point lexicographic). -/
def strLe (a b : String) : Bool := lexLe a.data b.data

/-- The ordering relation used to model Python's `sorted` on strings. -/
def strLeR (a b : String) : Prop := strLe a b = true

instance : DecidableRel strLeR := fun a b => by unfold strLeR; infer_instance

/-! ### Query model (`query.py`) -/

/-- The structured query produced by `parse_query`. -/
structure ParsedQuery where
  exact_filenames : List String
  exact_stems : List String
  and_extensions : List String
  tokens : List String
  case_sensitive : Bool := false
deriving DecidableEq, Repr

/-- `_norm`: normalise one string per case sensitivity. -/
def pyNorm (s : String) (case_sensitive : Bool) : String :=
  if case_sensitive then s else strLower s

/-- `_normalize_ext`: strip, lowercase, and ensure a leading dot
(`startswith "."`). -/
def normalize_ext (e : String) : String :=
  let e := strLower (pyStrip e)
  if e.data.head? == some '.' then e else ⟨'.' :: e.data⟩

/-- The static `TYPE_GROUPS` table of `utils.py`. -/
def TYPE_GROUPS : List (String × List String) :=
  [ ("image", [".png", ".jpg", ".jpeg", ".gif", ".bmp", ".tiff", ".tif", ".webp", ".heic", ".svg"]),
    ("video", [".mp4", ".mkv", ".mov", ".avi", ".webm", ".wmv", ".m4v"]),
    ("audio", [".mp3", ".wav", ".flac", ".aac", ".ogg", ".m4a"]),
    ("doc",   [".pdf", ".doc", ".docx", ".rtf", ".txt", ".md", ".rst"]),
    ("code",  [".py", ".js", ".ts", ".tsx", ".jsx", ".java", ".c", ".cpp", ".cs", ".go", ".rb", ".rs", ".php", ".sh", ".ps1"]),
    ("archive", [".zip", ".tar", ".gz", ".tgz", ".bz2", ".7z", ".rar"]),
    ("data",  [".csv", ".tsv", ".json", ".jsonl", ".ndjson", ".parquet", ".feather",
               ".arrow", ".orc", ".h5", ".hdf5", ".db", ".sqlite", ".sqlite3", ".db3",
               ".dta", ".sav"]),
    ("sheet", [".xlsx", ".xls", ".ods", ".csv", ".tsv"]),
    ("notebook", [".ipynb"]),
    ("pdf", [".pdf"]) ]

/-- `_expand_type_to_exts`: look a category up in `TYPE_GROUPS` (empty on miss). -/
def expand_type_to_exts (type_name : String) : List String :=
  ((TYPE_GROUPS.find? (fun p => p.1 == strLower type_name)).map Prod.snd).getD []

/-- ASCII letters and digits, the class `[A-Za-z0-9]`. -/
def isAsciiAlnum (c : Char) : Bool :=
  (65 ≤ c.toNat && c.toNat ≤ 90) || (97 ≤ c.toNat && c.toNat ≤ 122) ||
    (48 ≤ c.toNat && c.toNat ≤ 57)

/-- `EXT_RE`: full match of `ext:(\.[A-Za-z0-9]+)` (case-insensitive on `ext`),
returning the captured group. -/
def ext_re_match (s : String) : Option String :=
  match s.data with
  | e :: x :: t :: c :: d :: rest =>
    if lowerChar e == 'e' && lowerChar x == 'x' && lowerChar t == 't' &&
        c == ':' && d == '.' && !rest.isEmpty && rest.all isAsciiAlnum then
      some ⟨'.' :: rest⟩
    else none
  | _ => none

/-- `TYPE_RE`: full match of `type:([A-Za-z0-9_]+)` (case-insensitive on `type`),
returning the captured group. -/
def type_re_match (s : String) : Option String :=
  match s.data with
  | t :: y :: p :: e :: c :: rest =>
    if lowerChar t == 't' && lowerChar y == 'y' && lowerChar p == 'p' &&
        lowerChar e == 'e' && c == ':' && !rest.isEmpty &&
        rest.all (fun ch => isAsciiAlnum ch || ch == '_') then
      some ⟨rest⟩
    else none
  | _ => none

/-- The left-to-right scan of `QUOTED_RE` (`"([^"]+)"`).  The second argument
is `none` outside any tentative match, and `some acc` after an opening quote
with `acc` the `[^"]*` read so far.  A closing quote over a non-empty group is
a match (group recorded, span replaced by one space in the text); a closing
quote over an empty group means the opening quote failed, stays literal, and
the scan reopens at the closing quote; an unclosed opening quote at the end of
input stays literal.  This is exactly how the regex engine matches the
pattern left to right without overlap. -/
def quoted_scan_go : List Char → Option (List Char) → List (List Char) × List Char
  | [], none => ([], [])
  | [], some acc => ([], '"' :: acc)
  | c :: rest, none =>
    if c == '"' then quoted_scan_go rest (some [])
    else
      let pr := quoted_scan_go rest none
      (pr.1, c :: pr.2)
  | c :: rest, some acc =>
    if c == '"' then
      if acc.isEmpty then
        let pr := quoted_scan_go rest (some [])
        (pr.1, '"' :: pr.2)
      else
        let pr := quoted_scan_go rest none
        (acc :: pr.1, ' ' :: pr.2)
    else quoted_scan_go rest (some (acc ++ [c]))

/-- `QUOTED_RE.findall` and `QUOTED_RE.sub(" ", ·)` in one scan: the captured
groups, in order, and the input with each matched span replaced by a single
space. -/
def quoted_scan (l : List Char) : List (List Char) × List Char :=
  quoted_scan_go l none

/-- The word accumulator of `split_ws`. -/
def split_ws_go : List Char → List Char → List (List Char)
  | [], acc => if acc.isEmpty then [] else [acc]
  | c :: rest, acc =>
    if isPyWs c then
      if acc.isEmpty then split_ws_go rest []
      else acc :: split_ws_go rest []
    else split_ws_go rest (acc ++ [c])

/-- `[t for t in re.split(r"\s+", s.strip()) if t]`: the whitespace-separated
words of a character list. -/
def split_ws (l : List Char) : List (List Char) := split_ws_go l []

/-- Python `" ".join`. -/
def joinWith (sep : String) : List String → String
  | [] => ""
  | [x] => x
  | x :: xs => x ++ sep ++ joinWith sep xs

/-- The mutable accumulators of `parse_query` before final dedup/sort. -/
structure QAcc where
  exact_filenames : List String
  exact_stems : List String
  and_extensions : List String
  tokens : List String
deriving DecidableEq, Repr

/-- Python `s.split(sep)[-1]`: the suffix after the last occurrence of `sep`. -/
def after_last (sep : Char) (l : List Char) : List Char :=
  (l.reverse.takeWhile (fun c => c != sep)).reverse

/-- Processing of one quoted item in `parse_query`. -/
def process_quoted (cs : Bool) (acc : QAcc) (raw : String) : QAcc :=
  let s := pyStrip raw
  let n := pyNorm s cs
  match (ext_re_match s).orElse (fun _ => ext_re_match n) with
  | some g => { acc with and_extensions := acc.and_extensions ++ [normalize_ext g] }
  | none =>
  match (type_re_match s).orElse (fun _ => type_re_match n) with
  | some g =>
      { acc with and_extensions :=
          acc.and_extensions ++ (expand_type_to_exts g).map normalize_ext }
  | none =>
  if s.data.contains '/' || s.data.contains '\\' then
    { acc with exact_filenames :=
        acc.exact_filenames ++ [pyNorm ⟨after_last '\\' (after_last '/' s.data)⟩ cs] }
  else if s.data.contains '.' && !(s.data.head? == some '.') then
    { acc with exact_filenames := acc.exact_filenames ++ [pyNorm s cs] }
  else
    { acc with exact_stems := acc.exact_stems ++ [pyNorm s cs] }

/-- Processing of one unquoted item in `parse_query`. -/
def process_unquoted (cs : Bool) (acc : QAcc) (raw : String) : QAcc :=
  let s := pyStrip raw
  let n := pyNorm s cs
  match (ext_re_match s).orElse (fun _ => ext_re_match n) with
  | some g => { acc with and_extensions := acc.and_extensions ++ [normalize_ext g] }
  | none =>
  match (type_re_match s).orElse (fun _ => type_re_match n) with
  | some g =>
      { acc with and_extensions :=
          acc.and_extensions ++ (expand_type_to_exts g).map normalize_ext }
  | none => { acc with tokens := acc.tokens ++ [n] }

/-- The order-preserving `dedup` helper of `parse_query`, with its seen-set. -/
def dedup_go (seen : List String) : List String → List String
  | [] => []
  | x :: xs => if seen.contains x then dedup_go seen xs else x :: dedup_go (x :: seen) xs

/-- `dedup`: drop duplicates keeping first occurrences. -/
def pydedup (l : List String) : List String := dedup_go [] l

/-- The accumulation stage of `parse_query`: split the joined terms into
quoted groups and unquoted words, and run both processing loops. -/
def parse_acc (argv_terms : List String) (case_sensitive : Bool) : QAcc :=
  let joined := joinWith " " argv_terms
  let pr := quoted_scan joined.data
  let unquoted := split_ws pr.2
  let acc0 : QAcc := ⟨[], [], [], []⟩
  let acc1 := pr.1.foldl (fun a g => process_quoted case_sensitive a ⟨g⟩) acc0
  unquoted.foldl (fun a t => process_unquoted case_sensitive a ⟨t⟩) acc1

/-- `parse_query`: parse raw terms into a `ParsedQuery` (final dedup keeping
first occurrences; extensions emitted as the sorted distinct list,
`sorted(set(...))`). -/
def parse_query (argv_terms : List String) (case_sensitive : Bool := false) : ParsedQuery :=
  let acc2 := parse_acc argv_terms case_sensitive
  { exact_filenames := pydedup acc2.exact_filenames
    exact_stems := pydedup acc2.exact_stems
    and_extensions := List.insertionSort strLeR (pydedup acc2.and_extensions)
    tokens := pydedup acc2.tokens
    case_sensitive := case_sensitive }

/-! ### File oracle and matcher (`search.py`, `utils.py`) -/

/-- The fields of `os.stat_result` the engine uses. -/
structure StatInfo where
  st_dev : Int
  st_ino : Int
  st_size : Nat
deriving DecidableEq, Repr

/-- One candidate file, together with the outcome of every I/O operation the
engine may perform on it (`none` means the call raises). -/
structure PFile where
  name : String
  stem : String
  suffix : String
  statInfo : Option StatInfo
  headBytes : Option (List Nat)
  text : Option String
  resolved : Option String
  raw : String
deriving DecidableEq, Repr

/-- The deduplication key of `_file_id`: a device+inode pair when `stat`
succeeds, else a (case-folded, resolved) path string, else the raw path
string.  The two string fallbacks inhabit the same constructor, exactly as
the two 1-tuples of `str` do in Python. -/
inductive FileId where
  | devino (dev ino : Int)
  | pathstr (s : String)
deriving DecidableEq, Repr

/-- `_file_id`. -/
def file_id (p : PFile) : FileId :=
  match p.statInfo with
  | some st => .devino st.st_dev st.st_ino
  | none =>
    match p.resolved with
    | some r => .pathstr (strLower r)
    | none => .pathstr p.raw

/-- `MatchResult`. -/
structure MatchResult where
  path : PFile
deriving DecidableEq, Repr

/-- The `TEXT_EXTS` allowlist of `utils.py`. -/
def TEXT_EXTS : List String :=
  [".txt", ".md", ".rst", ".log", ".py", ".js", ".ts", ".tsx", ".jsx", ".json",
   ".yml", ".yaml", ".ini", ".cfg", ".conf", ".html", ".htm", ".css", ".xml",
   ".csv", ".tsv", ".ipynb", ".tex"]

/-- `is_probably_text`: allowlisted extension, else no null byte in the first
1024 bytes (`headBytes`); a failing read is `False`. -/
def is_probably_text (p : PFile) : Bool :=
  if TEXT_EXTS.contains (strLower p.suffix) then true
  else
    match p.headBytes with
    | none => false
    | some sample => !sample.contains 0

/-- `_name_matches`. -/
def name_matches (filename stem ext : String) (q : ParsedQuery) : Bool :=
  let fn := if q.case_sensitive then filename else strLower filename
  let st := if q.case_sensitive then stem else strLower stem
  let ex := if q.case_sensitive then ext else strLower ext
  if !q.and_extensions.isEmpty && !q.and_extensions.contains ex then false
  else if !q.exact_filenames.isEmpty && q.exact_filenames.contains fn then true
  else if !q.exact_stems.isEmpty && q.exact_stems.contains st then true
  else q.tokens.any (fun tok => !tok.isEmpty && strContainsSub fn tok)

/-- `_content_matches`. -/
def content_matches (text : String) (q : ParsedQuery) : Bool :=
  if q.tokens.isEmpty then false
  else
    let hay := if q.case_sensitive then text else strLower text
    q.tokens.any (fun tok => !tok.isEmpty && strContainsSub hay tok)

/-- `_evaluate_path`: the per-file matcher.  The `text` oracle field stands
for the result of `_read_text path max_bytes`; a `none` in `statInfo` or
`text` is the raised exception swallowed by the enclosing `try`. -/
def evaluate_path (p : PFile) (q : ParsedQuery) (scan_content content_only : Bool)
    (max_bytes : Nat) (ext_match_or : Bool) : Option MatchResult :=
  let ext := strLower p.suffix
  if ext_match_or && !q.and_extensions.isEmpty && q.and_extensions.contains ext then
    some ⟨p⟩
  else if !content_only && name_matches p.name p.stem ext q then
    some ⟨p⟩
  else if scan_content then
    if is_probably_text p then
      match p.statInfo with
      | none => none
      | some st =>
        if st.st_size ≤ max_bytes then
          match p.text with
          | none => none
          | some txt =>
            if content_matches txt q then
              if q.and_extensions.isEmpty || q.and_extensions.contains ext then some ⟨p⟩
              else none
            else none
        else none
    else none
  else none

/-! ### Traversal (`utils.py`) -/

mutual

/-- One directory entry as seen by `os.scandir`: a regular file, a
subdirectory (with a flag saying whether `os.scandir` on it succeeds), or an
entry that is neither a regular file nor a directory, or whose inspection
raises (skipped by `_walk_scandir` either way). -/
inductive Entry where
  | efile (f : PFile)
  | edir (name : String) (listable : Bool) (sub : EntryList)
  | eskip

/-- A directory listing, in `os.scandir` order. -/
inductive EntryList where
  | nil
  | cons (e : Entry) (es : EntryList)

end

/-- Convenience constructor for listings. -/
def elist : List Entry → EntryList
  | [] => .nil
  | e :: es => .cons e (elist es)

/-- One traversal root: `present` is `root.exists()`, `listable` whether
`os.scandir(root)` succeeds. -/
structure RootDir where
  present : Bool
  listable : Bool
  sub : EntryList

/-- The regular files directly inside a listing, in `scandir` order. -/
def files_of : EntryList → List PFile
  | .nil => []
  | .cons (.efile f) es => f :: files_of es
  | .cons _ es => files_of es

mutual

/-- The subdirectory traversal of one listing, in stack (reverse) order:
the explicit stack of `_walk_scandir` is LIFO, so the subdirectories of one
listing are descended into in reverse listing order, each completely, after
all the files of the listing were yielded. -/
def walk_subdirs (excl : List String) (maxd : Option Nat) :
    EntryList → Nat → List PFile
  | .nil, _ => []
  | .cons e es, depth =>
    walk_subdirs excl maxd es depth ++ walk_entry excl maxd e depth

/-- The contribution of one entry of a listing at parent depth `depth`:
only subdirectories contribute; an excluded name prunes the whole subtree;
the descent happens only when `depth + 1` does not exceed `maxd`; an
unlistable subdirectory yields nothing (`except: continue`). -/
def walk_entry (excl : List String) (maxd : Option Nat) : Entry → Nat → List PFile
  | .efile _, _ => []
  | .eskip, _ => []
  | .edir name l sub, depth =>
    if excl.contains name then []
    else
      match maxd with
      | none =>
        if l then files_of sub ++ walk_subdirs excl maxd sub (depth + 1) else []
      | some m =>
        if depth + 1 ≤ m then
          if l then files_of sub ++ walk_subdirs excl maxd sub (depth + 1) else []
        else []

end

/-- `_walk_scandir` on one directory popped from the stack: an unlistable
directory is skipped; otherwise its files are yielded in listing order and
its subdirectories walked afterwards. -/
def walk_dir (excl : List String) (maxd : Option Nat) (listable : Bool)
    (sub : EntryList) (depth : Nat) : List PFile :=
  if listable then files_of sub ++ walk_subdirs excl maxd sub depth
  else []

/-- `iter_files`: walk every existing root from depth 0. -/
def iter_files (roots : List RootDir) (excl : List String) (maxd : Option Nat) :
    List PFile :=
  (roots.map (fun r => if r.present then walk_dir excl maxd r.listable r.sub 0 else [])).flatten

/-! ### Coordinator (`search.py` `search`) -/

/-- `SearchStats`; times are integer clock ticks. -/
structure SearchStats where
  emitted : Nat
  wall_time_sec : Int
  idle_time_sec : Int
  stopped_reason : String
deriving DecidableEq, Repr

/-- The keyword options of `search` that the model represents.  `streaming`
is whether `stream_callback` is supplied. -/
structure SearchCfg where
  scan_content : Bool := true
  content_only : Bool := false
  max_content_size_mb : Nat := 10
  limit : Int := 200
  max_depth : Option Nat := none
  exclude_dirs : List String := []
  streaming : Bool := false
  ext_match_or : Bool := false
  idle_timeout_sec : Option Int := none
deriving DecidableEq, Repr

/-- `max_bytes = max_content_size_mb * 1024 * 1024`. -/
def max_bytes_of (mb : Nat) : Nat := mb * 1024 * 1024

/-- The coordinator's mutable state during one `search` call.  `sink` is the
sequence of `stream_callback` invocations; `clock_idx` is the index of the
next `time.monotonic()` reading. -/
structure SState where
  results : List MatchResult
  sink : List PFile
  seen : List FileId
  emitted : Nat
  stopped_reason : String
  idle_deadline : Option Int
  last_emit_time : Option Int
  stop_flag : Bool
  clock_idx : Nat
deriving DecidableEq, Repr

/-- The value `search` produces: the buffered results, the statistics and
the stream of callback deliveries. -/
structure SearchOut where
  results : List MatchResult
  stats : SearchStats
  sink : List PFile
deriving DecidableEq, Repr

/-- `timed_out`: reads the clock only when a deadline is set (the `and`
short-circuits). -/
def timed_out (clock : Nat → Int) (st : SState) : Bool × SState :=
  match st.idle_deadline with
  | none => (false, st)
  | some d =>
    (decide (d ≤ clock st.clock_idx), { st with clock_idx := st.clock_idx + 1 })

/-- `reset_idle_timer`: record the emission time and push the idle deadline
(only when an idle timeout is configured and positive). -/
def reset_idle_timer (cfg : SearchCfg) (clock : Nat → Int) (st : SState) : SState :=
  let t := clock st.clock_idx
  let st := { st with clock_idx := st.clock_idx + 1, last_emit_time := some t }
  match cfg.idle_timeout_sec with
  | some T => if 0 < T then { st with idle_deadline := some (t + T) } else st
  | none => st

/-- `maybe_emit`: deduplicate by `file_id`, deliver to the callback or the
result buffer, count, reset the idle timer, and stop at `max 1 limit`
emissions.  Returns the new state and the `True`/`False` continuation flag
of the source. -/
def maybe_emit (cfg : SearchCfg) (clock : Nat → Int) (st : SState) (p : PFile) :
    SState × Bool :=
  let fid := file_id p
  if st.seen.contains fid then (st, true)
  else
    let st := { st with seen := fid :: st.seen }
    let st :=
      if cfg.streaming then { st with sink := st.sink ++ [p] }
      else { st with results := st.results ++ [⟨p⟩] }
    let st := { st with emitted := st.emitted + 1 }
    let st := reset_idle_timer cfg clock st
    if max 1 cfg.limit ≤ (st.emitted : Int) then
      ({ st with stopped_reason := "limit", stop_flag := true }, false)
    else (st, true)

/-- Shorthand for the matcher call the coordinator makes. -/
def eval_opts (cfg : SearchCfg) (scan : Bool) (q : ParsedQuery) (p : PFile) :
    Option MatchResult :=
  evaluate_path p q scan cfg.content_only (max_bytes_of cfg.max_content_size_mb)
    cfg.ext_match_or

/-- The fast path of `search` (`scan_content = False`): evaluate candidates
inline, checking `stop_event`/`timed_out` before each. -/
def fast_loop (cfg : SearchCfg) (q : ParsedQuery) (clock : Nat → Int) :
    List PFile → SState → SState
  | [], st => st
  | p :: rest, st =>
    let pr := if st.stop_flag then (true, st) else timed_out clock st
    if pr.1 then
      let pr2 := timed_out clock pr.2
      if pr2.1 then { pr2.2 with stopped_reason := "idle_timeout" } else pr2.2
    else
      match eval_opts cfg false q p with
      | some r =>
        let em := maybe_emit cfg clock pr.2 r.path
        if em.2 then fast_loop cfg q clock rest em.1 else em.1
      | none => fast_loop cfg q clock rest pr.2

/-- The batch drain of the pooled path (`for fut in as_completed(futures)`
inside the submission loop): stops on the stop flag or an idle stop. -/
def drain_batch (cfg : SearchCfg) (clock : Nat → Int) :
    List (Option MatchResult) → SState → SState
  | [], st => st
  | r :: rest, st =>
    if st.stop_flag || st.stopped_reason == "idle_timeout" then st
    else
      match r with
      | none => drain_batch cfg clock rest st
      | some m =>
        let em := maybe_emit cfg clock st m.path
        if em.2 then drain_batch cfg clock rest em.1 else em.1

/-- The final drain of the pooled path (the trailing
`for fut in as_completed(futures)`): it checks only the stop flag. -/
def drain_final (cfg : SearchCfg) (clock : Nat → Int) :
    List (Option MatchResult) → SState → SState
  | [], st => st
  | r :: rest, st =>
    if st.stop_flag then st
    else
      match r with
      | none => drain_final cfg clock rest st
      | some m =>
        let em := maybe_emit cfg clock st m.path
        if em.2 then drain_final cfg clock rest em.1 else em.1

/-- The pooled path of `search` (`scan_content = True`): submit each
candidate's evaluation, draining in batches of 2048 (or on an idle timeout);
`reorder dc` is the completion order `as_completed` gives the `dc`-th drain.
Returns the state, the still-pending futures and the next drain index. -/
def pooled_loop (cfg : SearchCfg) (q : ParsedQuery) (clock : Nat → Int)
    (reorder : Nat → List (Option MatchResult) → List (Option MatchResult)) :
    List PFile → List (Option MatchResult) → Nat → SState →
      SState × List (Option MatchResult) × Nat
  | [], futures, dc, st => (st, futures, dc)
  | p :: rest, futures, dc, st =>
    let pr := if st.stop_flag then (true, st) else timed_out clock st
    if pr.1 then
      let pr2 := timed_out clock pr.2
      (if pr2.1 then { pr2.2 with stopped_reason := "idle_timeout" } else pr2.2,
       futures, dc)
    else
      let futures := futures ++ [eval_opts cfg true q p]
      let pr3 := if 2048 ≤ futures.length then (true, pr.2) else timed_out clock pr.2
      if pr3.1 then
        let pr4 := timed_out clock pr3.2
        let st4 := if pr4.1 then { pr4.2 with stopped_reason := "idle_timeout" } else pr4.2
        let st5 := drain_batch cfg clock (reorder dc futures) st4
        if st5.stop_flag || st5.stopped_reason == "idle_timeout" then (st5, [], dc + 1)
        else pooled_loop cfg q clock reorder rest [] (dc + 1) st5
      else pooled_loop cfg q clock reorder rest futures dc pr3.2

/-- The statistics block closing both paths of `search`: `end` is one final
clock reading; the idle gap falls back to `start` when `last_emit_time` is
`None` — or `0.0`, which is falsy in Python. -/
def finish (cfg : SearchCfg) (clock : Nat → Int) (tstart : Int) (st : SState) :
    SearchOut :=
  let tend := clock st.clock_idx
  let base :=
    match st.last_emit_time with
    | some v => if v == 0 then tstart else v
    | none => tstart
  let idle := if st.stopped_reason == "idle_timeout" then max 0 (tend - base) else 0
  { results := st.results
    stats := { emitted := st.emitted, wall_time_sec := tend - tstart,
               idle_time_sec := idle, stopped_reason := st.stopped_reason }
    sink := st.sink }

/-- The coordinator state at the start of one `search` call; `start` has
been read at clock index 0. -/
def init_state (cfg : SearchCfg) (tstart : Int) : SState :=
  { results := [], sink := [], seen := [], emitted := 0, stopped_reason := "complete",
    idle_deadline :=
      match cfg.idle_timeout_sec with
      | some T => if 0 < T then some (tstart + T) else none
      | none => none,
    last_emit_time := none, stop_flag := false, clock_idx := 1 }

/-- `search`: one full call, dispatching on `scan_content`. -/
def search (roots : List RootDir) (q : ParsedQuery) (cfg : SearchCfg)
    (clock : Nat → Int)
    (reorder : Nat → List (Option MatchResult) → List (Option MatchResult)) :
    SearchOut :=
  let tstart := clock 0
  let st0 := init_state cfg tstart
  let cands := iter_files roots cfg.exclude_dirs cfg.max_depth
  if cfg.scan_content then
    let res := pooled_loop cfg q clock reorder cands [] 0 st0
    let st2 := drain_final cfg clock (reorder res.2.2 res.2.1) res.1
    finish cfg clock tstart st2
  else
    finish cfg clock tstart (fast_loop cfg q clock cands st0)

/-! ### General helper lemmas -/

theorem contains_iff_mem {l : List String} {x : String} : l.contains x = true ↔ x ∈ l :=
  List.elem_iff

theorem contains_iff_mem_id {l : List FileId} {x : FileId} : l.contains x = true ↔ x ∈ l :=
  List.elem_iff

theorem contains_eq_false_iff {l : List String} {x : String} :
    l.contains x = false ↔ x ∉ l := by
  rw [← Bool.not_eq_true, not_iff_not]
  exact contains_iff_mem

theorem strIsEmpty_eq_false_iff {s : String} : s.isEmpty = false ↔ s ≠ "" := by
  rw [← Bool.not_eq_true, not_iff_not]
  exact String.isEmpty_iff s

theorem bang_true_down {b : Bool} (h : (!b) = true) : b = false := by
  cases b
  · rfl
  · exact absurd h (by simp)

theorem bang_true_up {b : Bool} (h : b = false) : (!b) = true := by
  rw [h]
  rfl

theorem band_iff {a b : Bool} : (a && b) = true ↔ a = true ∧ b = true := by
  cases a <;> cases b <;> simp

theorem bool_eq_false_of_ne_true {b : Bool} (h : ¬b = true) : b = false := by
  cases b
  · rfl
  · exact absurd rfl h

theorem isEmpty_false_of_mem {α : Type} {l : List α} {x : α} (h : x ∈ l) :
    l.isEmpty = false := by
  cases l
  · cases h
  · rfl

theorem gate_passes {exts : List String} {ex : String}
    (h : ¬((!exts.isEmpty && !exts.contains ex) = true)) : exts = [] ∨ ex ∈ exts := by
  by_cases he : exts = []
  · exact Or.inl he
  · right
    have hA := bool_eq_false_of_ne_true h
    rcases Bool.and_eq_false_iff.mp hA with hx | hx
    · rw [Bool.not_eq_false'] at hx
      exact absurd (List.isEmpty_iff.mp hx) he
    · rw [Bool.not_eq_false'] at hx
      exact contains_iff_mem.mp hx

theorem gate_fails {exts : List String} {ex : String}
    (h : (!exts.isEmpty && !exts.contains ex) = true) : ¬(exts = [] ∨ ex ∈ exts) := by
  obtain ⟨hne, hnc⟩ := band_iff.mp h
  rintro (he | he)
  · rw [he] at hne
    exact absurd hne (by simp)
  · rw [Bool.not_eq_true'] at hnc
    exact absurd he (contains_eq_false_iff.mp hnc)

/-! ### C1: the extension AND-filter in `_name_matches` -/

/-- Characterisation of `_name_matches`: after case normalisation, a
non-empty `and_extensions` gates every branch — the exact-filename,
exact-stem and token paths alike — and acceptance is an exact filename hit,
an exact stem hit, or a non-empty token occurring in the filename. -/
theorem name_matches_iff (filename stem ext : String) (q : ParsedQuery) :
    name_matches filename stem ext q = true ↔
      ((q.and_extensions = [] ∨
          (if q.case_sensitive then ext else strLower ext) ∈ q.and_extensions) ∧
        ((if q.case_sensitive then filename else strLower filename) ∈ q.exact_filenames ∨
          (if q.case_sensitive then stem else strLower stem) ∈ q.exact_stems ∨
          ∃ tok ∈ q.tokens, tok ≠ "" ∧
            strContainsSub (if q.case_sensitive then filename else strLower filename) tok = true)) := by
  unfold name_matches
  cases hcs : q.case_sensitive
  all_goals
    simp only [Bool.false_eq_true, Bool.true_eq_false, if_true, if_false, ite_true,
      ite_false]
  all_goals
    refine (fun go => go) ?_
  all_goals
    split_ifs with h1 h2 h3
    · constructor
      · intro h
        exact absurd h (by simp)
      · rintro ⟨hext, -⟩
        exact absurd hext (gate_fails h1)
    · constructor
      · intro _
        exact ⟨gate_passes h1, Or.inl (contains_iff_mem.mp (band_iff.mp h2).2)⟩
      · intro _
        rfl
    · constructor
      · intro _
        exact ⟨gate_passes h1, Or.inr (Or.inl (contains_iff_mem.mp (band_iff.mp h3).2))⟩
      · intro _
        rfl
    · constructor
      · intro h
        obtain ⟨tok, htok, hh⟩ := List.any_eq_true.mp h
        obtain ⟨hne, hc⟩ := band_iff.mp hh
        exact ⟨gate_passes h1, Or.inr (Or.inr ⟨tok, htok,
          strIsEmpty_eq_false_iff.mp (bang_true_down hne), hc⟩)⟩
      · rintro ⟨-, hm | hm | hm⟩
        · exact absurd (band_iff.mpr
            ⟨bang_true_up (isEmpty_false_of_mem hm), contains_iff_mem.mpr hm⟩) h2
        · exact absurd (band_iff.mpr
            ⟨bang_true_up (isEmpty_false_of_mem hm), contains_iff_mem.mpr hm⟩) h3
        · obtain ⟨tok, htok, hne, hc⟩ := hm
          exact List.any_eq_true.mpr ⟨tok, htok, band_iff.mpr
            ⟨bang_true_up (strIsEmpty_eq_false_iff.mpr hne), hc⟩⟩

/-- C1, counterexample: with `ext_match_or` disabled and
`and_extensions = [".txt"]`, a candidate named `notes.md` whose filename
exactly equals the `exact_filenames` entry `"notes.md"` is REJECTED by
`_name_matches` (and by the whole matcher) because its extension is not in
`and_extensions` — the extension AND-filter gates the exact-name and
exact-stem paths too, contrary to the claim. -/
theorem C1_counterexample :
    (parse_query ["\"notes.md\"", "ext:.txt"] false).exact_filenames = ["notes.md"] ∧
    (parse_query ["\"notes.md\"", "ext:.txt"] false).and_extensions = [".txt"] ∧
    name_matches "notes.md" "notes" ".md"
      (parse_query ["\"notes.md\"", "ext:.txt"] false) = false ∧
    evaluate_path ⟨"notes.md", "notes", ".md", some ⟨1, 1, 5⟩, some [], some "x", some "/p", "/p"⟩
      (parse_query ["\"notes.md\"", "ext:.txt"] false) false false (max_bytes_of 10) false = none ∧
    evaluate_path ⟨"notes.md", "notes", ".md", some ⟨1, 1, 5⟩, some [], some "x", some "/p", "/p"⟩
      (parse_query ["\"notes.md\"", "ext:.txt"] false) true false (max_bytes_of 10) false = none := by
  decide

/-- C1, amended: with a non-empty `and_extensions` filter, `_name_matches`
accepts a candidate iff its (case-normalised) extension is a member of
`and_extensions` AND the name matches — by exact filename, exact stem, or a
non-empty token substring.  There is no asymmetry: the extension AND-filter
gates all three name paths alike (only `ext_match_or` bypasses it, in
`_evaluate_path`). -/
theorem C1_name_matcher_gate (filename stem ext : String) (q : ParsedQuery)
    (hne : q.and_extensions ≠ []) :
    name_matches filename stem ext q = true ↔
      ((if q.case_sensitive then ext else strLower ext) ∈ q.and_extensions ∧
        ((if q.case_sensitive then filename else strLower filename) ∈ q.exact_filenames ∨
          (if q.case_sensitive then stem else strLower stem) ∈ q.exact_stems ∨
          ∃ tok ∈ q.tokens, tok ≠ "" ∧
            strContainsSub (if q.case_sensitive then filename else strLower filename) tok = true)) := by
  rw [name_matches_iff]
  constructor
  · rintro ⟨hg | hg, hacc⟩
    · exact absurd hg hne
    · exact ⟨hg, hacc⟩
  · rintro ⟨hg, hacc⟩
    exact ⟨Or.inr hg, hacc⟩

/-- Witness for C1: the gate theorem applied at a concrete matching input. -/
theorem C1_name_matcher_gate_witness :
    name_matches "notes.txt" "notes" ".txt"
      ⟨["notes.txt"], [], [".txt"], [], false⟩ = true :=
  (C1_name_matcher_gate "notes.txt" "notes" ".txt"
    ⟨["notes.txt"], [], [".txt"], [], false⟩ (by decide)).mpr (by decide)

/-! ### C6: the content-scan gate -/

/-- C6: with `scan_content` enabled, the content avenue contributes nothing
unless the file is "probably text" and its stat-reported size is at most
`max_content_size_mb * 1024 * 1024` bytes: for any file failing that gate,
`_evaluate_path` with content scanning behaves exactly as without it, so the
file can only match by name (or by `ext_match_or`).  In particular an
oversized `.txt` file is never matched by content. -/
theorem C6_content_gate (p : PFile) (q : ParsedQuery) (co emo : Bool) (mb : Nat)
    (hgate : ¬(is_probably_text p = true ∧
      ∃ st, p.statInfo = some st ∧ st.st_size ≤ max_bytes_of mb)) :
    evaluate_path p q true co (max_bytes_of mb) emo =
      evaluate_path p q false co (max_bytes_of mb) emo := by
  cases hpt : is_probably_text p with
  | false => simp [evaluate_path, hpt]
  | true =>
    cases hst : p.statInfo with
    | none => simp [evaluate_path, hpt, hst]
    | some st =>
      have hsz : ¬st.st_size ≤ max_bytes_of mb := fun hc => hgate ⟨hpt, st, hst, hc⟩
      simp [evaluate_path, hpt, hst, hsz]

/-- Witness for C6: a `.txt` file of 20 MiB against a 10 MiB cap, whose text
contains the token, is not matched by content (and here not by name either). -/
theorem C6_content_gate_witness :
    evaluate_path
        ⟨"big.txt", "big", ".txt", some ⟨1, 1, 20971520⟩, some [104], some "payload", some "/b", "/b"⟩
        ⟨[], [], [], ["payload"], false⟩ true false (max_bytes_of 10) false =
      evaluate_path
        ⟨"big.txt", "big", ".txt", some ⟨1, 1, 20971520⟩, some [104], some "payload", some "/b", "/b"⟩
        ⟨[], [], [], ["payload"], false⟩ false false (max_bytes_of 10) false :=
  C6_content_gate _ _ _ _ _ (by decide)

/-! ### C9: error handling -/

/-- C9: the engine's failure handling, in three parts.  (i) A root whose
`exists()` is false is skipped before traversal begins.  (ii) A directory
that cannot be listed yields nothing — as a root, and as a subdirectory
inside a listing, where the step equation shows only that entry's subtree is
dropped.  (iii) A file whose `stat` fails, or whose open/read fails
(`text = none`), or which has no allowlisted extension and whose 1024-byte
probe read fails, is treated by the matcher exactly as if content scanning
were off: the failing avenue is "no match", never an error.  All operations
of the embedding are total Lean functions: no exception escapes `search`. -/
theorem C9_failures_are_skips (l : Bool) (sub : EntryList) (rs : List RootDir)
    (excl : List String) (maxd : Option Nat) (name : String) (es : EntryList)
    (depth : Nat) (p : PFile) (q : ParsedQuery) (co emo : Bool) (mb : Nat)
    (hb : strLower p.suffix ∉ TEXT_EXTS) :
    iter_files (⟨false, l, sub⟩ :: rs) excl maxd = iter_files rs excl maxd ∧
    walk_dir excl maxd false sub depth = [] ∧
    walk_subdirs excl maxd (.cons (.edir name false sub) es) depth =
      walk_subdirs excl maxd es depth ∧
    evaluate_path { p with statInfo := none } q true co mb emo =
      evaluate_path { p with statInfo := none } q false co mb emo ∧
    evaluate_path { p with text := none } q true co mb emo =
      evaluate_path { p with text := none } q false co mb emo ∧
    evaluate_path { p with headBytes := none } q true co mb emo =
      evaluate_path { p with headBytes := none } q false co mb emo := by
  refine ⟨rfl, rfl, ?_, ?_, ?_, ?_⟩
  · show walk_subdirs excl maxd es depth ++ walk_entry excl maxd (.edir name false sub) depth =
      walk_subdirs excl maxd es depth
    have hz : walk_entry excl maxd (.edir name false sub) depth = [] := by
      unfold walk_entry
      cases maxd <;> split_ifs <;> simp_all
    rw [hz, List.append_nil]
  · simp [evaluate_path]
  · cases hst : p.statInfo with
    | none => simp [evaluate_path, hst]
    | some st => simp [evaluate_path, hst]
  · have hfa : is_probably_text { p with headBytes := none } = false := by
      unfold is_probably_text
      rw [if_neg]
      intro hc
      exact hb (contains_iff_mem.mp hc)
    simp [evaluate_path, hfa]

/-- Witness for C9 at concrete inputs. -/
theorem C9_failures_are_skips_witness :
    iter_files (⟨false, true, .nil⟩ :: []) [] none = iter_files [] [] none ∧
    walk_dir [] none false .nil 0 = [] ∧
    walk_subdirs [] none (.cons (.edir "d" false .nil) .nil) 0 =
      walk_subdirs [] none .nil 0 ∧
    evaluate_path ⟨"a.bin", "a", ".bin", none, some [104], some "x", some "/a", "/a"⟩
      ⟨[], [], [], ["x"], false⟩ true false 10 false =
      evaluate_path ⟨"a.bin", "a", ".bin", none, some [104], some "x", some "/a", "/a"⟩
        ⟨[], [], [], ["x"], false⟩ false false 10 false ∧
    evaluate_path ⟨"a.bin", "a", ".bin", some ⟨1, 1, 1⟩, some [104], none, some "/a", "/a"⟩
      ⟨[], [], [], ["x"], false⟩ true false 10 false =
      evaluate_path ⟨"a.bin", "a", ".bin", some ⟨1, 1, 1⟩, some [104], none, some "/a", "/a"⟩
        ⟨[], [], [], ["x"], false⟩ false false 10 false ∧
    evaluate_path ⟨"a.bin", "a", ".bin", some ⟨1, 1, 1⟩, none, some "x", some "/a", "/a"⟩
      ⟨[], [], [], ["x"], false⟩ true false 10 false =
      evaluate_path ⟨"a.bin", "a", ".bin", some ⟨1, 1, 1⟩, none, some "x", some "/a", "/a"⟩
        ⟨[], [], [], ["x"], false⟩ false false 10 false := by
  have h := C9_failures_are_skips true .nil [] [] none "d" .nil 0
    ⟨"a.bin", "a", ".bin", some ⟨1, 1, 1⟩, some [104], some "x", some "/a", "/a"⟩
    ⟨[], [], [], ["x"], false⟩ false false 10 (by decide)
  exact ⟨h.1, h.2.1, h.2.2.1, h.2.2.2.1, h.2.2.2.2.1, h.2.2.2.2.2⟩

/-! ### C7: classification of quoted terms -/

/-- C7: every quoted term that is not an `ext:`/`type:` directive is
classified by `parse_query` as follows: a text containing a path separator
contributes its final path segment as an exact filename; else a text
containing a `.` not at the start becomes an exact filename; else an exact
stem.  And concretely, `parse_query ['"notes.txt"']` yields
`exact_filenames = ["notes.txt"]` while `parse_query ['"notes"']` yields
`exact_stems = ["notes"]`. -/
theorem C7_quoted_classification (cs : Bool) (acc : QAcc) (raw : String)
    (hx1 : ext_re_match (pyStrip raw) = none)
    (hx2 : ext_re_match (pyNorm (pyStrip raw) cs) = none)
    (ht1 : type_re_match (pyStrip raw) = none)
    (ht2 : type_re_match (pyNorm (pyStrip raw) cs) = none) :
    process_quoted cs acc raw =
      (if (pyStrip raw).data.contains '/' || (pyStrip raw).data.contains '\\' then
        { acc with exact_filenames := acc.exact_filenames ++
            [pyNorm ⟨after_last '\\' (after_last '/' (pyStrip raw).data)⟩ cs] }
      else if (pyStrip raw).data.contains '.' && !((pyStrip raw).data.head? == some '.') then
        { acc with exact_filenames := acc.exact_filenames ++ [pyNorm (pyStrip raw) cs] }
      else
        { acc with exact_stems := acc.exact_stems ++ [pyNorm (pyStrip raw) cs] }) ∧
    parse_query ["\"notes.txt\""] false =
      { exact_filenames := ["notes.txt"], exact_stems := [], and_extensions := [],
        tokens := [], case_sensitive := false } ∧
    parse_query ["\"notes\""] false =
      { exact_filenames := [], exact_stems := ["notes"], and_extensions := [],
        tokens := [], case_sensitive := false } := by
  refine ⟨?_, by decide, by decide⟩
  unfold process_quoted
  dsimp only
  simp only [hx1, hx2, ht1, ht2, Option.orElse]

/-- Witness for C7: the classification rule applied to one path-like quoted
term. -/
theorem C7_quoted_classification_witness :
    process_quoted false ⟨[], [], [], []⟩ "dir/notes.txt" =
      { exact_filenames := ["notes.txt"], exact_stems := [], and_extensions := [],
        tokens := [] } := by
  have h := (C7_quoted_classification false ⟨[], [], [], []⟩ "dir/notes.txt"
    (by decide) (by decide) (by decide) (by decide)).1
  exact h.trans (by decide)

/-! ### C8: invariants of `parse_query` outputs -/

theorem toNat_ofNat_le (n : Nat) (h : n ≤ 1000) : (Char.ofNat n).toNat = n := by
  have hv : n.isValidChar := by
    unfold Nat.isValidChar
    left
    omega
  unfold Char.ofNat
  rw [dif_pos hv]
  unfold Char.ofNatAux Char.toNat
  rfl

theorem lowerChar_idem (c : Char) : lowerChar (lowerChar c) = lowerChar c := by
  unfold lowerChar
  by_cases h : 65 ≤ c.toNat ∧ c.toNat ≤ 90
  · have hb : (65 ≤ c.toNat && c.toNat ≤ 90) = true := by simp [h.1, h.2]
    rw [hb]
    simp only [if_true]
    have ht : (Char.ofNat (c.toNat + 32)).toNat = c.toNat + 32 :=
      toNat_ofNat_le _ (by omega)
    have hf : (65 ≤ (Char.ofNat (c.toNat + 32)).toNat &&
        (Char.ofNat (c.toNat + 32)).toNat ≤ 90) = false := by
      rw [ht]
      simp
      omega
    rw [hf]
    simp
  · have hb : (65 ≤ c.toNat && c.toNat ≤ 90) = false := by
      simp only [Bool.and_eq_false_iff]
      rcases Decidable.not_and_iff_or_not.mp h with h1 | h1
      · left
        simpa using h1
      · right
        simpa using h1
    rw [hb]
    simp only [Bool.false_eq_true, if_false]
    rw [hb]
    simp

theorem map_lowerChar_idem (l : List Char) :
    (l.map lowerChar).map lowerChar = l.map lowerChar := by
  induction l with
  | nil => rfl
  | cons c cs ih => simp [lowerChar_idem, ih]

theorem strLower_idem (s : String) : strLower (strLower s) = strLower s := by
  unfold strLower
  exact congrArg String.mk (map_lowerChar_idem s.data)

theorem lowerChar_dot : lowerChar '.' = '.' := by decide

/-- `_normalize_ext` always produces a lowercase, dot-prefixed string. -/
theorem normalize_ext_spec (g : String) :
    strLower (normalize_ext g) = normalize_ext g ∧
      ∃ t, (normalize_ext g).data = '.' :: t := by
  have hmap : (strLower (pyStrip g)).data.map lowerChar = (strLower (pyStrip g)).data := by
    have h := congrArg String.data (strLower_idem (pyStrip g))
    exact h
  unfold normalize_ext
  by_cases hd : (strLower (pyStrip g)).data.head? == some '.'
  · simp only [hd, if_true]
    refine ⟨strLower_idem (pyStrip g), ?_⟩
    cases h : (strLower (pyStrip g)).data with
    | nil => rw [h] at hd; exact absurd hd (by decide)
    | cons c cs =>
      refine ⟨cs, ?_⟩
      rw [h] at hd
      have : c = '.' := by
        have := of_decide_eq_true hd
        simpa using this
      rw [this]
  · simp only [hd, Bool.false_eq_true, if_false]
    constructor
    · show strLower ⟨'.' :: (strLower (pyStrip g)).data⟩ = _
      unfold strLower
      simp only [List.map_cons, lowerChar_dot]
      rw [map_lowerChar_idem]
    · exact ⟨_, rfl⟩

theorem lexLe_total (a : List Char) : ∀ b, lexLe a b = true ∨ lexLe b a = true := by
  induction a with
  | nil => intro b; left; rfl
  | cons x xs ih =>
    intro b
    cases b with
    | nil => right; rfl
    | cons y ys =>
      simp only [lexLe]
      rcases lt_trichotomy x y with h | h | h
      · left; simp [h]
      · subst h
        simp only [lt_irrefl, if_false]
        exact ih ys
      · right; simp [h, not_lt_of_lt h]

theorem lexLe_trans (a : List Char) :
    ∀ b c, lexLe a b = true → lexLe b c = true → lexLe a c = true := by
  induction a with
  | nil => intro b c _ _; rfl
  | cons x xs ih =>
    intro b c h1 h2
    cases b with
    | nil => simp [lexLe] at h1
    | cons y ys =>
      cases c with
      | nil => simp [lexLe] at h2
      | cons z zs =>
        simp only [lexLe] at h1 h2 ⊢
        rcases lt_trichotomy x y with hxy | hxy | hxy
        · rcases lt_trichotomy y z with hyz | hyz | hyz
          · simp [lt_trans hxy hyz]
          · subst hyz; simp [hxy]
          · rw [if_neg (not_lt_of_lt hyz), if_pos hyz] at h2
            cases h2
        · subst hxy
          rw [if_neg (lt_irrefl x), if_neg (lt_irrefl x)] at h1
          rcases lt_trichotomy x z with hyz | hyz | hyz
          · simp [hyz]
          · subst hyz
            rw [if_neg (lt_irrefl x), if_neg (lt_irrefl x)] at h2 ⊢
            exact ih ys zs h1 h2
          · rw [if_neg (not_lt_of_lt hyz), if_pos hyz] at h2
            cases h2
        · rw [if_neg (not_lt_of_lt hxy), if_pos hxy] at h1
          cases h1

instance : IsTotal String strLeR :=
  ⟨fun a b => lexLe_total a.data b.data⟩

instance : IsTrans String strLeR :=
  ⟨fun a b c h1 h2 => lexLe_trans a.data b.data c.data h1 h2⟩

theorem mem_dedup_go (x : String) (l : List String) :
    ∀ seen, x ∈ dedup_go seen l ↔ x ∈ l ∧ x ∉ seen := by
  induction l with
  | nil => intro seen; simp [dedup_go]
  | cons y ys ih =>
    intro seen
    unfold dedup_go
    by_cases hy : seen.contains y = true
    · rw [if_pos hy, ih]
      have hym : y ∈ seen := contains_iff_mem.mp hy
      simp only [List.mem_cons]
      constructor
      · rintro ⟨hm, hns⟩
        exact ⟨Or.inr hm, hns⟩
      · rintro ⟨hy2 | hm, hns⟩
        · subst hy2
          exact absurd hym hns
        · exact ⟨hm, hns⟩
    · rw [if_neg hy]
      have hyn : y ∉ seen := fun hc => hy (contains_iff_mem.mpr hc)
      simp only [List.mem_cons, ih]
      constructor
      · rintro (hx | ⟨hm, hns⟩)
        · subst hx
          exact ⟨Or.inl rfl, hyn⟩
        · exact ⟨Or.inr hm, fun hc => hns (Or.inr hc)⟩
      · rintro ⟨hx | hm, hns⟩
        · exact Or.inl hx
        · by_cases hxy : x = y
          · exact Or.inl hxy
          · exact Or.inr ⟨hm, fun hc => hc.elim hxy hns⟩

theorem nodup_dedup_go (l : List String) : ∀ seen, (dedup_go seen l).Nodup := by
  induction l with
  | nil => intro seen; simp [dedup_go]
  | cons y ys ih =>
    intro seen
    unfold dedup_go
    by_cases hy : seen.contains y = true
    · rw [if_pos hy]
      exact ih seen
    · rw [if_neg hy]
      refine List.nodup_cons.mpr ⟨?_, ih (y :: seen)⟩
      intro hc
      exact ((mem_dedup_go y ys (y :: seen)).mp hc).2 (List.mem_cons_self y seen)

theorem sublist_dedup_go (l : List String) : ∀ seen, List.Sublist (dedup_go seen l) l := by
  induction l with
  | nil => intro seen; simp [dedup_go]
  | cons y ys ih =>
    intro seen
    unfold dedup_go
    by_cases hy : seen.contains y = true
    · rw [if_pos hy]
      exact (ih seen).cons y
    · rw [if_neg hy]
      exact (ih (y :: seen)).cons₂ y

/-- Strings of the shape `_normalize_ext` emits. -/
def extForm (x : String) : Prop := ∃ g, x = normalize_ext g

/-- Strings of the shape `_norm` emits for the given case sensitivity. -/
def normForm (cs : Bool) (x : String) : Prop := ∃ s, x = pyNorm s cs

/-- Every string in the accumulators has the normalisation its field demands. -/
def QAccGood (cs : Bool) (a : QAcc) : Prop :=
  (∀ x ∈ a.exact_filenames, normForm cs x) ∧
  (∀ x ∈ a.exact_stems, normForm cs x) ∧
  (∀ x ∈ a.and_extensions, extForm x) ∧
  (∀ x ∈ a.tokens, normForm cs x)

theorem process_quoted_good (cs : Bool) (a : QAcc) (r : String) (h : QAccGood cs a) :
    QAccGood cs (process_quoted cs a r) := by
  obtain ⟨h1, h2, h3, h4⟩ := h
  unfold process_quoted
  dsimp only
  cases hm : (ext_re_match (pyStrip r)).orElse
      (fun _ => ext_re_match (pyNorm (pyStrip r) cs)) with
  | some g =>
    refine ⟨h1, h2, ?_, h4⟩
    intro x hx
    rcases List.mem_append.mp hx with hx | hx
    · exact h3 x hx
    · rw [List.mem_singleton.mp hx]
      exact ⟨g, rfl⟩
  | none =>
    cases hm2 : (type_re_match (pyStrip r)).orElse
        (fun _ => type_re_match (pyNorm (pyStrip r) cs)) with
    | some g =>
      refine ⟨h1, h2, ?_, h4⟩
      intro x hx
      rcases List.mem_append.mp hx with hx | hx
      · exact h3 x hx
      · obtain ⟨e, _, he⟩ := List.mem_map.mp hx
        exact ⟨e, he.symm⟩
    | none =>
      split_ifs with hs1 hs2
      · refine ⟨?_, h2, h3, h4⟩
        intro x hx
        rcases List.mem_append.mp hx with hx | hx
        · exact h1 x hx
        · rw [List.mem_singleton.mp hx]
          exact ⟨_, rfl⟩
      · refine ⟨?_, h2, h3, h4⟩
        intro x hx
        rcases List.mem_append.mp hx with hx | hx
        · exact h1 x hx
        · rw [List.mem_singleton.mp hx]
          exact ⟨_, rfl⟩
      · refine ⟨h1, ?_, h3, h4⟩
        intro x hx
        rcases List.mem_append.mp hx with hx | hx
        · exact h2 x hx
        · rw [List.mem_singleton.mp hx]
          exact ⟨_, rfl⟩

theorem process_unquoted_good (cs : Bool) (a : QAcc) (r : String) (h : QAccGood cs a) :
    QAccGood cs (process_unquoted cs a r) := by
  obtain ⟨h1, h2, h3, h4⟩ := h
  unfold process_unquoted
  dsimp only
  cases hm : (ext_re_match (pyStrip r)).orElse
      (fun _ => ext_re_match (pyNorm (pyStrip r) cs)) with
  | some g =>
    refine ⟨h1, h2, ?_, h4⟩
    intro x hx
    rcases List.mem_append.mp hx with hx | hx
    · exact h3 x hx
    · rw [List.mem_singleton.mp hx]
      exact ⟨g, rfl⟩
  | none =>
    cases hm2 : (type_re_match (pyStrip r)).orElse
        (fun _ => type_re_match (pyNorm (pyStrip r) cs)) with
    | some g =>
      refine ⟨h1, h2, ?_, h4⟩
      intro x hx
      rcases List.mem_append.mp hx with hx | hx
      · exact h3 x hx
      · obtain ⟨e, _, he⟩ := List.mem_map.mp hx
        exact ⟨e, he.symm⟩
    | none =>
      refine ⟨h1, h2, h3, ?_⟩
      intro x hx
      rcases List.mem_append.mp hx with hx | hx
      · exact h4 x hx
      · rw [List.mem_singleton.mp hx]
        exact ⟨_, rfl⟩

theorem foldl_preserves_good (cs : Bool) (f : QAcc → String → QAcc)
    (hf : ∀ a r, QAccGood cs a → QAccGood cs (f a r)) :
    ∀ (items : List String) (a : QAcc), QAccGood cs a → QAccGood cs (items.foldl f a) := by
  intro items
  induction items with
  | nil => intro a h; exact h
  | cons r rs ih =>
    intro a h
    exact ih (f a r) (hf a r h)

/-- The same for folds over character-list items, as `parse_query` uses. -/
theorem foldl_preserves_good_chars (cs : Bool) (f : QAcc → String → QAcc)
    (hf : ∀ a r, QAccGood cs a → QAccGood cs (f a r)) :
    ∀ (items : List (List Char)) (a : QAcc), QAccGood cs a →
      QAccGood cs (items.foldl (fun a g => f a ⟨g⟩) a) := by
  intro items
  induction items with
  | nil => intro a h; exact h
  | cons r rs ih =>
    intro a h
    exact ih (f a ⟨r⟩) (hf a ⟨r⟩ h)

theorem parse_acc_good (terms : List String) (cs : Bool) :
    QAccGood cs (parse_acc terms cs) := by
  unfold parse_acc
  apply foldl_preserves_good_chars cs (process_unquoted cs) (process_unquoted_good cs)
  apply foldl_preserves_good_chars cs (process_quoted cs) (process_quoted_good cs)
  exact ⟨by simp, by simp, by simp, by simp⟩

theorem pydedup_nodup (l : List String) : (pydedup l).Nodup := nodup_dedup_go l []

theorem pydedup_sublist (l : List String) : List.Sublist (pydedup l) l := sublist_dedup_go l []

theorem mem_pydedup {x : String} {l : List String} : x ∈ pydedup l ↔ x ∈ l := by
  unfold pydedup
  rw [mem_dedup_go]
  simp

/-- C8: the invariants of every `ParsedQuery` that `parse_query` returns:
every extension is lowercase, dot-prefixed, and the extension list is sorted
and duplicate-free; exact filenames, exact stems and tokens are
duplicate-free, kept in first-seen order (`pydedup` is an order-preserving
sublist containing every input element), lowercased when `case_sensitive` is
false and passed through `_norm` verbatim when it is true. -/
theorem C8_parse_query_invariants (terms : List String) (cs : Bool) :
    (∀ e ∈ (parse_query terms cs).and_extensions,
        strLower e = e ∧ ∃ t, e.data = '.' :: t) ∧
    List.Sorted strLeR (parse_query terms cs).and_extensions ∧
    (parse_query terms cs).and_extensions.Nodup ∧
    (parse_query terms cs).exact_filenames.Nodup ∧
    (parse_query terms cs).exact_stems.Nodup ∧
    (parse_query terms cs).tokens.Nodup ∧
    (cs = false →
      (∀ x ∈ (parse_query terms cs).exact_filenames, strLower x = x) ∧
      (∀ x ∈ (parse_query terms cs).exact_stems, strLower x = x) ∧
      (∀ x ∈ (parse_query terms cs).tokens, strLower x = x)) ∧
    (∀ s, pyNorm s true = s) ∧
    (∀ l : List String, (pydedup l).Nodup ∧ List.Sublist (pydedup l) l ∧
      ∀ y ∈ l, y ∈ pydedup l) := by
  obtain ⟨hg1, hg2, hg3, hg4⟩ := parse_acc_good terms cs
  have hshow : parse_query terms cs =
      { exact_filenames := pydedup (parse_acc terms cs).exact_filenames
        exact_stems := pydedup (parse_acc terms cs).exact_stems
        and_extensions := List.insertionSort strLeR (pydedup (parse_acc terms cs).and_extensions)
        tokens := pydedup (parse_acc terms cs).tokens
        case_sensitive := cs } := rfl
  rw [hshow]
  refine ⟨?_, ?_, ?_, pydedup_nodup _, pydedup_nodup _, pydedup_nodup _, ?_, fun s => rfl, ?_⟩
  · intro e he
    have hmem : e ∈ pydedup (parse_acc terms cs).and_extensions :=
      ((List.perm_insertionSort strLeR _).mem_iff).mp he
    obtain ⟨g, hge⟩ := hg3 e (mem_pydedup.mp hmem)
    rw [hge]
    exact normalize_ext_spec g
  · exact List.sorted_insertionSort strLeR _
  · exact ((List.perm_insertionSort strLeR _).nodup_iff).mpr (pydedup_nodup _)
  · intro hcs
    subst hcs
    refine ⟨?_, ?_, ?_⟩
    · intro x hx
      obtain ⟨s, hs⟩ := hg1 x (mem_pydedup.mp hx)
      rw [hs]
      exact strLower_idem s
    · intro x hx
      obtain ⟨s, hs⟩ := hg2 x (mem_pydedup.mp hx)
      rw [hs]
      exact strLower_idem s
    · intro x hx
      obtain ⟨s, hs⟩ := hg4 x (mem_pydedup.mp hx)
      rw [hs]
      exact strLower_idem s
  · intro l
    exact ⟨pydedup_nodup l, pydedup_sublist l, fun y hy => mem_pydedup.mpr hy⟩

/-- Witness for C8 at a concrete query. -/
theorem C8_parse_query_invariants_witness :
    strLower ".jpg" = ".jpg" ∧ ∃ t, (".jpg" : String).data = '.' :: t :=
  (C8_parse_query_invariants ["ext:.JPG", "\"Notes.txt\"", "Tok"] false).1 ".jpg" (by decide)

/-! ### Coordinator invariants -/

/-- The emissions of a state: buffered results followed by callback
deliveries (during one call only one of the two grows). -/
def emissions (st : SState) : List PFile := st.results.map (·.path) ++ st.sink

/-- The coordinator's running invariant: the emitted counter equals the
number of seen identities, the emissions carry exactly the seen identities
(in emission order, no duplicates), the counter never exceeds `max 1 limit`
and the stop flag is set exactly on reaching it, exactly one of the two
output channels is used, and no idle deadline exists unless one was
configured. -/
def MainInv (cfg : SearchCfg) (st : SState) : Prop :=
  st.emitted = st.seen.length ∧
  (emissions st).map file_id = st.seen.reverse ∧
  st.seen.Nodup ∧
  ((st.emitted : Int) ≤ max 1 cfg.limit) ∧
  (st.stop_flag = true ↔ (st.emitted : Int) = max 1 cfg.limit) ∧
  (cfg.streaming = true → st.results = []) ∧
  (cfg.streaming = false → st.sink = []) ∧
  (cfg.idle_timeout_sec = none → st.idle_deadline = none)

theorem maybe_emit_seen_mem (cfg : SearchCfg) (clock : Nat → Int) (st : SState)
    (p : PFile) (h : file_id p ∈ st.seen) :
    maybe_emit cfg clock st p = (st, true) := by
  unfold maybe_emit
  rw [if_pos (contains_iff_mem_id.mpr h)]

theorem MainInv_clock (cfg : SearchCfg) (st : SState) (n : Nat)
    (h : MainInv cfg st) : MainInv cfg { st with clock_idx := n } := h

theorem MainInv_reason (cfg : SearchCfg) (st : SState) (r : String)
    (h : MainInv cfg st) : MainInv cfg { st with stopped_reason := r } := h

theorem timed_out_snd (clock : Nat → Int) (st : SState) :
    (timed_out clock st).2 = st ∨
      (timed_out clock st).2 = { st with clock_idx := st.clock_idx + 1 } := by
  unfold timed_out
  cases st.idle_deadline with
  | none => exact Or.inl rfl
  | some d => exact Or.inr rfl

theorem timed_out_inv (cfg : SearchCfg) (clock : Nat → Int) (st : SState)
    (h : MainInv cfg st) : MainInv cfg (timed_out clock st).2 := by
  rcases timed_out_snd clock st with hs | hs <;> rw [hs]
  · exact h
  · exact h

theorem timed_out_none (clock : Nat → Int) (st : SState)
    (h : st.idle_deadline = none) : timed_out clock st = (false, st) := by
  unfold timed_out
  rw [h]

/-- The state `maybe_emit` builds for a not-yet-seen identity, before the
cap check: identity recorded, match delivered to the one active channel,
counter bumped, idle timer reset.  Written with exactly the update chain of
the source, so `maybe_emit` on a fresh identity is definitionally the cap
check over this state. -/
def emit_step (cfg : SearchCfg) (clock : Nat → Int) (st : SState) (p : PFile) : SState :=
  let st1 := { st with seen := file_id p :: st.seen }
  let st2 :=
    if cfg.streaming then { st1 with sink := st1.sink ++ [p] }
    else { st1 with results := st1.results ++ [⟨p⟩] }
  let st3 := { st2 with emitted := st2.emitted + 1 }
  reset_idle_timer cfg clock st3

theorem maybe_emit_fresh_eq (cfg : SearchCfg) (clock : Nat → Int) (st : SState)
    (p : PFile) (h : file_id p ∉ st.seen) :
    maybe_emit cfg clock st p =
      if max 1 cfg.limit ≤ ((emit_step cfg clock st p).emitted : Int) then
        ({ (emit_step cfg clock st p) with
           stopped_reason := "limit", stop_flag := true }, false)
      else (emit_step cfg clock st p, true) := by
  unfold maybe_emit emit_step
  rw [if_neg (fun hc => h (contains_iff_mem_id.mp hc))]

theorem reset_idle_timer_fields (cfg : SearchCfg) (clock : Nat → Int) (st : SState) :
    (reset_idle_timer cfg clock st).results = st.results ∧
    (reset_idle_timer cfg clock st).sink = st.sink ∧
    (reset_idle_timer cfg clock st).seen = st.seen ∧
    (reset_idle_timer cfg clock st).emitted = st.emitted ∧
    (reset_idle_timer cfg clock st).stopped_reason = st.stopped_reason ∧
    (reset_idle_timer cfg clock st).stop_flag = st.stop_flag ∧
    (cfg.idle_timeout_sec = none →
      (reset_idle_timer cfg clock st).idle_deadline = st.idle_deadline) := by
  unfold reset_idle_timer
  cases hT : cfg.idle_timeout_sec with
  | none => exact ⟨rfl, rfl, rfl, rfl, rfl, rfl, fun _ => rfl⟩
  | some T =>
    dsimp only
    by_cases h : (0 : Int) < T
    · simp only [if_pos h]
      refine ⟨?_, ?_, ?_, ?_, ?_, ?_, ?_⟩ <;> first | trivial | rfl | (intro hc; cases hc)
    · simp only [if_neg h]
      refine ⟨?_, ?_, ?_, ?_, ?_, ?_, ?_⟩ <;> first | trivial | rfl | (intro hc; cases hc)

theorem emissions_reason_stop (st : SState) (r : String) (b : Bool) :
    emissions { st with stopped_reason := r, stop_flag := b } = emissions st := rfl

theorem emit_step_spec (cfg : SearchCfg) (clock : Nat → Int) (st : SState) (p : PFile)
    (hchan : (cfg.streaming = true → st.results = []) ∧
      (cfg.streaming = false → st.sink = [])) :
    (emit_step cfg clock st p).seen = file_id p :: st.seen ∧
    (emit_step cfg clock st p).emitted = st.emitted + 1 ∧
    (emit_step cfg clock st p).stopped_reason = st.stopped_reason ∧
    (emit_step cfg clock st p).stop_flag = st.stop_flag ∧
    emissions (emit_step cfg clock st p) = emissions st ++ [p] ∧
    (cfg.streaming = true → (emit_step cfg clock st p).results = []) ∧
    (cfg.streaming = false → (emit_step cfg clock st p).sink = []) ∧
    (cfg.idle_timeout_sec = none →
      (emit_step cfg clock st p).idle_deadline = st.idle_deadline) := by
  cases hstream : cfg.streaming with
  | true =>
    obtain ⟨hr, hs, hsee, he, hrea, hsf, hdl⟩ := reset_idle_timer_fields cfg clock
      { st with
        seen := file_id p :: st.seen, sink := st.sink ++ [p],
        emitted := st.emitted + 1 }
    have hes : emit_step cfg clock st p = reset_idle_timer cfg clock
        { st with
          seen := file_id p :: st.seen, sink := st.sink ++ [p],
          emitted := st.emitted + 1 } := by
      unfold emit_step
      simp [hstream]
    rw [hes]
    refine ⟨hsee, he, hrea, hsf, ?_, ?_, ?_, hdl⟩
    · unfold emissions
      rw [hr, hs]
      rw [hchan.1 hstream]
      simp
    · intro _
      rw [hr]
      exact hchan.1 hstream
    · intro hc
      cases hc
  | false =>
    obtain ⟨hr, hs, hsee, he, hrea, hsf, hdl⟩ := reset_idle_timer_fields cfg clock
      { st with
        seen := file_id p :: st.seen, results := st.results ++ [⟨p⟩],
        emitted := st.emitted + 1 }
    have hes : emit_step cfg clock st p = reset_idle_timer cfg clock
        { st with
          seen := file_id p :: st.seen, results := st.results ++ [⟨p⟩],
          emitted := st.emitted + 1 } := by
      unfold emit_step
      simp [hstream]
    rw [hes]
    refine ⟨hsee, he, hrea, hsf, ?_, ?_, ?_, hdl⟩
    · unfold emissions
      rw [hr, hs]
      rw [hchan.2 hstream]
      simp
    · intro hc
      cases hc
    · intro _
      rw [hs]
      exact hchan.2 hstream

/-- Full description of one `maybe_emit` step from a running (non-stopped)
state: the invariant is preserved, the identity is recorded, the seen set
only grows, `False` is returned exactly on reaching the cap (with reason
`"limit"` and the stop flag raised), a `True` return leaves the stop flag
down and the reason untouched, and with no idle timeout configured the idle
deadline stays absent. -/
theorem maybe_emit_inv (cfg : SearchCfg) (clock : Nat → Int) (st : SState) (p : PFile)
    (hst : st.stop_flag = false) (hinv : MainInv cfg st) :
    MainInv cfg (maybe_emit cfg clock st p).1 ∧
    file_id p ∈ (maybe_emit cfg clock st p).1.seen ∧
    (∀ i ∈ st.seen, i ∈ (maybe_emit cfg clock st p).1.seen) ∧
    ((maybe_emit cfg clock st p).2 = false →
      (maybe_emit cfg clock st p).1.stop_flag = true ∧
      (maybe_emit cfg clock st p).1.stopped_reason = "limit") ∧
    ((maybe_emit cfg clock st p).2 = true →
      (maybe_emit cfg clock st p).1.stop_flag = false ∧
      (maybe_emit cfg clock st p).1.stopped_reason = st.stopped_reason) := by
  obtain ⟨h1, h2, h3, h4, h5, h6, h7, h8⟩ := hinv
  by_cases hdup : file_id p ∈ st.seen
  · rw [maybe_emit_seen_mem cfg clock st p hdup]
    refine ⟨⟨h1, h2, h3, h4, h5, h6, h7, h8⟩, hdup, fun i hi => hi, ?_, ?_⟩
    · intro hc
      cases hc
    · intro _
      exact ⟨hst, rfl⟩
  · have hlt : (st.emitted : Int) < max 1 cfg.limit := by
      rcases lt_or_eq_of_le h4 with h | h
      · exact h
      · exact absurd (h5.mpr h) (by rw [hst]; simp)
    obtain ⟨e1, e2, e3, e4, e5, e6, e7, e8⟩ :=
      emit_step_spec cfg clock st p ⟨h6, h7⟩
    have c1 : (emit_step cfg clock st p).emitted =
        (emit_step cfg clock st p).seen.length := by
      rw [e2, e1, h1, List.length_cons]
    have c2 : (emissions (emit_step cfg clock st p)).map file_id =
        (emit_step cfg clock st p).seen.reverse := by
      rw [e5, e1, List.map_append, h2, List.reverse_cons]
      rfl
    have c3 : (emit_step cfg clock st p).seen.Nodup := by
      rw [e1]
      exact List.nodup_cons.mpr ⟨hdup, h3⟩
    have c4 : ((emit_step cfg clock st p).emitted : Int) ≤ max 1 cfg.limit := by
      rw [e2]
      omega
    have c8 : cfg.idle_timeout_sec = none →
        (emit_step cfg clock st p).idle_deadline = none := fun hc => by
      rw [e8 hc]
      exact h8 hc
    have hmem1 : file_id p ∈ (emit_step cfg clock st p).seen := by
      rw [e1]
      exact List.mem_cons_self _ _
    have hmem2 : ∀ i ∈ st.seen, i ∈ (emit_step cfg clock st p).seen := by
      intro i hi
      rw [e1]
      exact List.mem_cons_of_mem _ hi
    rw [maybe_emit_fresh_eq cfg clock st p hdup]
    by_cases hcap : max 1 cfg.limit ≤ ((emit_step cfg clock st p).emitted : Int)
    · rw [if_pos hcap]
      rw [e2] at hcap
      refine ⟨⟨c1, c2, c3, c4, ?_, e6, e7, c8⟩, hmem1, hmem2, ?_, ?_⟩
      · show (true = true) ↔ _
        have he : ({ (emit_step cfg clock st p) with
            stopped_reason := "limit", stop_flag := true } : SState).emitted =
            st.emitted + 1 := e2
        rw [he]
        constructor
        · intro _
          omega
        · intro _
          rfl
      · intro _
        exact ⟨rfl, rfl⟩
      · intro hc
        cases hc
    · rw [if_neg hcap]
      rw [e2] at hcap
      refine ⟨⟨c1, c2, c3, c4, ?_, e6, e7, c8⟩, hmem1, hmem2, ?_, ?_⟩
      · rw [e4, e2, hst]
        constructor
        · intro hc
          cases hc
        · intro hc
          omega
      · intro hc
        cases hc
      · intro _
        rw [e4, e3]
        exact ⟨hst, rfl⟩

theorem timed_out_stop_flag (clock : Nat → Int) (st : SState) :
    (timed_out clock st).2.stop_flag = st.stop_flag := by
  rcases timed_out_snd clock st with hs | hs <;> rw [hs]

theorem timed_out_seen (clock : Nat → Int) (st : SState) :
    (timed_out clock st).2.seen = st.seen := by
  rcases timed_out_snd clock st with hs | hs <;> rw [hs]

/-- The running-reason invariant of an idle-free run: the reason is
`"complete"` while the search runs and `"limit"` once the stop flag is up. -/
def ReasonInv (st : SState) : Prop :=
  (st.stop_flag = false → st.stopped_reason = "complete") ∧
  (st.stop_flag = true → st.stopped_reason = "limit")

theorem timed_out_reason (clock : Nat → Int) (st : SState) :
    (timed_out clock st).2.stopped_reason = st.stopped_reason := by
  rcases timed_out_snd clock st with hs | hs <;> rw [hs]

theorem ReasonInv_not_idle {st : SState}
    (h : ReasonInv st) : (st.stopped_reason == "idle_timeout") = false := by
  cases hsf : st.stop_flag
  · rw [h.1 hsf]
    rfl
  · rw [h.2 hsf]
    rfl

/-- `MainInv` is preserved by the fast (inline) loop, for every
configuration. -/
theorem fast_loop_maininv (cfg : SearchCfg) (q : ParsedQuery) (clock : Nat → Int) :
    ∀ (l : List PFile) (st : SState), MainInv cfg st →
      MainInv cfg (fast_loop cfg q clock l st) := by
  intro l
  induction l with
  | nil => intro st h; exact h
  | cons p rest ih =>
    intro st h
    show MainInv cfg (fast_loop cfg q clock (p :: rest) st)
    unfold fast_loop
    dsimp only
    cases hsf : st.stop_flag with
    | true =>
      simp only [if_true]
      rcases hq2 : timed_out clock st with ⟨b2, st3⟩
      have hst3 : MainInv cfg st3 := by
        have := timed_out_inv cfg clock st h
        rw [hq2] at this
        exact this
      dsimp only
      cases b2 with
      | true => exact MainInv_reason cfg st3 _ hst3
      | false => exact hst3
    | false =>
      simp only [Bool.false_eq_true, if_false]
      rcases hq : timed_out clock st with ⟨b, st2⟩
      have hst2 : MainInv cfg st2 := by
        have := timed_out_inv cfg clock st h
        rw [hq] at this
        exact this
      dsimp only
      cases b with
      | true =>
        rcases hq2 : timed_out clock st2 with ⟨b2, st3⟩
        have hst3 : MainInv cfg st3 := by
          have := timed_out_inv cfg clock st2 hst2
          rw [hq2] at this
          exact this
        dsimp only
        cases b2 with
        | true => exact MainInv_reason cfg st3 _ hst3
        | false => exact hst3
      | false =>
        try dsimp only
        have hsf2 : st2.stop_flag = false := by
          have := timed_out_stop_flag clock st
          rw [hq] at this
          rw [this, hsf]
        cases hev : eval_opts cfg false q p with
        | none => exact ih st2 hst2
        | some r =>
          try dsimp only
          obtain ⟨hm1, _, _, _, _⟩ := maybe_emit_inv cfg clock st2 r.path hsf2 hst2
          cases hb4 : (maybe_emit cfg clock st2 r.path).2 with
          | true =>
            try dsimp only
            exact ih _ hm1
          | false =>
            try dsimp only
            exact hm1

/-- `MainInv` is preserved by a batch drain, for every configuration. -/
theorem drain_batch_maininv (cfg : SearchCfg) (clock : Nat → Int) :
    ∀ (L : List (Option MatchResult)) (st : SState), MainInv cfg st →
      MainInv cfg (drain_batch cfg clock L st) := by
  intro L
  induction L with
  | nil => intro st h; exact h
  | cons f rest ih =>
    intro st h
    unfold drain_batch
    cases hg : st.stop_flag || (st.stopped_reason == "idle_timeout") with
    | true =>
      simp only [if_true]
      exact h
    | false =>
      simp only [Bool.false_eq_true, if_false]
      have hsf : st.stop_flag = false := by
        rcases Bool.or_eq_false_iff.mp hg with ⟨h1, _⟩
        exact h1
      cases f with
      | none => exact ih st h
      | some m =>
        try dsimp only
        obtain ⟨hm1, _, _, _, _⟩ := maybe_emit_inv cfg clock st m.path hsf h
        cases hb : (maybe_emit cfg clock st m.path).2 with
        | true =>
          try dsimp only
          exact ih _ hm1
        | false =>
          try dsimp only
          exact hm1

/-- `MainInv` is preserved by the final drain, for every configuration. -/
theorem drain_final_maininv (cfg : SearchCfg) (clock : Nat → Int) :
    ∀ (L : List (Option MatchResult)) (st : SState), MainInv cfg st →
      MainInv cfg (drain_final cfg clock L st) := by
  intro L
  induction L with
  | nil => intro st h; exact h
  | cons f rest ih =>
    intro st h
    unfold drain_final
    cases hsf : st.stop_flag with
    | true =>
      simp only [if_true]
      exact h
    | false =>
      simp only [Bool.false_eq_true, if_false]
      cases f with
      | none => exact ih st h
      | some m =>
        try dsimp only
        obtain ⟨hm1, _, _, _, _⟩ := maybe_emit_inv cfg clock st m.path hsf h
        cases hb : (maybe_emit cfg clock st m.path).2 with
        | true =>
          try dsimp only
          exact ih _ hm1
        | false =>
          try dsimp only
          exact hm1

/-- `MainInv` is preserved by the pooled submission loop, for every
configuration and any completion order. -/
theorem pooled_loop_maininv (cfg : SearchCfg) (q : ParsedQuery) (clock : Nat → Int)
    (reorder : Nat → List (Option MatchResult) → List (Option MatchResult)) :
    ∀ (l : List PFile) (futures : List (Option MatchResult)) (dc : Nat) (st : SState),
      MainInv cfg st →
      MainInv cfg (pooled_loop cfg q clock reorder l futures dc st).1 := by
  intro l
  induction l with
  | nil => intro futures dc st h; exact h
  | cons p rest ih =>
    intro futures dc st h
    unfold pooled_loop
    try dsimp only
    cases hsf : st.stop_flag with
    | true =>
      simp only [if_true]
      rcases hq2 : timed_out clock st with ⟨b2, st3⟩
      have hst3 : MainInv cfg st3 := by
        have := timed_out_inv cfg clock st h
        rw [hq2] at this
        exact this
      try dsimp only
      cases b2 with
      | true => exact MainInv_reason cfg st3 _ hst3
      | false => exact hst3
    | false =>
      simp only [Bool.false_eq_true, if_false]
      rcases hq : timed_out clock st with ⟨b, st2⟩
      have hst2 : MainInv cfg st2 := by
        have := timed_out_inv cfg clock st h
        rw [hq] at this
        exact this
      try dsimp only
      cases b with
      | true =>
        rcases hq2 : timed_out clock st2 with ⟨b2, st3⟩
        have hst3 : MainInv cfg st3 := by
          have := timed_out_inv cfg clock st2 hst2
          rw [hq2] at this
          exact this
        try dsimp only
        cases b2 with
        | true => exact MainInv_reason cfg st3 _ hst3
        | false => exact hst3
      | false =>
        try dsimp only
        cases hb3 : (if 2048 ≤ (futures ++ [eval_opts cfg true q p]).length then
            (true, st2) else timed_out clock st2).1 with
        | true =>
          rcases hq4 : timed_out clock ((if 2048 ≤ (futures ++ [eval_opts cfg true q p]).length then
              (true, st2) else timed_out clock st2).2) with ⟨b4, st4⟩
          have hst4 : MainInv cfg st4 := by
            have hmid : MainInv cfg ((if 2048 ≤ (futures ++ [eval_opts cfg true q p]).length then
                (true, st2) else timed_out clock st2).2) := by
              by_cases hlen : 2048 ≤ (futures ++ [eval_opts cfg true q p]).length
              · rw [if_pos hlen]
                exact hst2
              · rw [if_neg hlen]
                exact timed_out_inv cfg clock st2 hst2
            have := timed_out_inv cfg clock _ hmid
            rw [hq4] at this
            exact this
          try dsimp only
          have hdrain : MainInv cfg (drain_batch cfg clock
              (reorder dc (futures ++ [eval_opts cfg true q p]))
              (if b4 = true then { st4 with stopped_reason := "idle_timeout" } else st4)) := by
            apply drain_batch_maininv
            cases b4 with
            | true =>
              simp only [if_true]
              exact MainInv_reason cfg st4 _ hst4
            | false =>
              simp only [Bool.false_eq_true, if_false]
              exact hst4
          cases hg5 : (drain_batch cfg clock
              (reorder dc (futures ++ [eval_opts cfg true q p]))
              (if b4 = true then { st4 with stopped_reason := "idle_timeout" } else st4)).stop_flag ||
              ((drain_batch cfg clock
                (reorder dc (futures ++ [eval_opts cfg true q p]))
                (if b4 = true then { st4 with stopped_reason := "idle_timeout" } else st4)).stopped_reason ==
                "idle_timeout") with
          | true =>
            try dsimp only
            exact hdrain
          | false =>
            try dsimp only
            exact ih _ _ _ hdrain
        | false =>
          try dsimp only
          apply ih
          have hmid : MainInv cfg ((if 2048 ≤ (futures ++ [eval_opts cfg true q p]).length then
              (true, st2) else timed_out clock st2).2) := by
            by_cases hlen : 2048 ≤ (futures ++ [eval_opts cfg true q p]).length
            · rw [if_pos hlen]
              exact hst2
            · rw [if_neg hlen]
              exact timed_out_inv cfg clock st2 hst2
          exact hmid

theorem init_state_maininv (cfg : SearchCfg) (tstart : Int) :
    MainInv cfg (init_state cfg tstart) := by
  have hmax := le_max_left (1 : Int) cfg.limit
  refine ⟨rfl, rfl, List.nodup_nil, ?_, ?_, fun _ => rfl, fun _ => rfl, ?_⟩
  · show ((0 : Nat) : Int) ≤ max 1 cfg.limit
    omega
  · show false = true ↔ ((0 : Nat) : Int) = max 1 cfg.limit
    constructor
    · intro hc
      cases hc
    · intro hc
      omega
  · intro hc
    show (match cfg.idle_timeout_sec with
      | some T => if 0 < T then some (tstart + T) else none
      | none => none) = none
    rw [hc]

theorem init_state_reasoninv (cfg : SearchCfg) (tstart : Int) :
    ReasonInv (init_state cfg tstart) := by
  constructor
  · intro _
    rfl
  · intro hc
    cases hc

theorem finish_projections (cfg : SearchCfg) (clock : Nat → Int) (tstart : Int)
    (st : SState) :
    (finish cfg clock tstart st).results = st.results ∧
    (finish cfg clock tstart st).sink = st.sink ∧
    (finish cfg clock tstart st).stats.emitted = st.emitted ∧
    (finish cfg clock tstart st).stats.stopped_reason = st.stopped_reason :=
  ⟨rfl, rfl, rfl, rfl⟩

/-- Every `search` call is `finish` applied to a final coordinator state
satisfying `MainInv`. -/
theorem search_final_state (roots : List RootDir) (q : ParsedQuery) (cfg : SearchCfg)
    (clock : Nat → Int)
    (reorder : Nat → List (Option MatchResult) → List (Option MatchResult)) :
    ∃ st : SState, MainInv cfg st ∧
      search roots q cfg clock reorder = finish cfg clock (clock 0) st := by
  unfold search
  try dsimp only
  cases hsc : cfg.scan_content with
  | true =>
    try dsimp only
    refine ⟨_, ?_, rfl⟩
    exact drain_final_maininv cfg clock _ _
      (pooled_loop_maininv cfg q clock reorder _ _ _ _
        (init_state_maininv cfg (clock 0)))
  | false =>
    try dsimp only
    refine ⟨_, ?_, rfl⟩
    exact fast_loop_maininv cfg q clock _ _ (init_state_maininv cfg (clock 0))

/-! ### C3: deduplication by file identity -/

/-- C3: a path whose `FileIdentity` was already seen leaves `maybe_emit` —
state and all — completely untouched and still returns `True` (no emission,
no counter increment, no progress toward the limit); consequently, over any
whole `search` call, the emitted matches carry pairwise distinct file
identities and the emitted counter equals the number of delivered matches. -/
theorem C3_dedup_by_identity (cfg : SearchCfg) (clock : Nat → Int) (st : SState)
    (p : PFile) (roots : List RootDir) (q : ParsedQuery) (cfg2 : SearchCfg)
    (clock2 : Nat → Int)
    (reorder : Nat → List (Option MatchResult) → List (Option MatchResult))
    (h : file_id p ∈ st.seen) :
    maybe_emit cfg clock st p = (st, true) ∧
    (((search roots q cfg2 clock2 reorder).results.map (·.path) ++
        (search roots q cfg2 clock2 reorder).sink).map file_id).Nodup ∧
    (search roots q cfg2 clock2 reorder).stats.emitted =
      (search roots q cfg2 clock2 reorder).results.length +
        (search roots q cfg2 clock2 reorder).sink.length := by
  obtain ⟨st2, hinv, heq⟩ := search_final_state roots q cfg2 clock2 reorder
  obtain ⟨h1, h2, h3, -, -, -, -, -⟩ := hinv
  refine ⟨maybe_emit_seen_mem cfg clock st p h, ?_, ?_⟩
  · rw [heq]
    show ((st2.results.map (·.path) ++ st2.sink).map file_id).Nodup
    rw [show st2.results.map (·.path) ++ st2.sink = emissions st2 from rfl, h2]
    exact List.nodup_reverse.mpr h3
  · rw [heq]
    show st2.emitted = st2.results.length + st2.sink.length
    have hlen := congrArg List.length h2
    simp only [List.length_map, List.length_reverse, List.length_append,
      emissions] at hlen
    omega

/-- A concrete coordinator state that has already seen device/inode (1, 7). -/
def c3_state : SState :=
  ⟨[], [], [.devino 1 7], 1, "complete", none, none, false, 1⟩

/-- A concrete candidate file whose identity is device/inode (1, 7). -/
def c3_file : PFile :=
  ⟨"a.txt", "a", ".txt", some ⟨1, 7, 5⟩, some [], some "x", some "/a", "/a"⟩

/-- Witness for C3: a duplicated identity at a concrete state. -/
theorem C3_dedup_by_identity_witness :
    maybe_emit { streaming := false } (fun i => (i : Int)) c3_state c3_file =
      (c3_state, true) :=
  (C3_dedup_by_identity { streaming := false } (fun i => (i : Int)) c3_state c3_file
    [] ⟨[], [], [], [], false⟩ {} (fun i => (i : Int)) (fun _ l => l) (by decide)).1

/-! ### C4: the streaming contract -/

/-- C4: when a `stream_callback` is supplied the returned `results` list is
empty and every accepted, deduplicated match is delivered exactly once to
the callback (the counter equals the number of deliveries, whose identities
are pairwise distinct); without a callback the sink stays empty and every
match is buffered in `results` instead. -/
theorem C4_streaming_contract (roots : List RootDir) (q : ParsedQuery)
    (cfg : SearchCfg) (clock : Nat → Int)
    (reorder : Nat → List (Option MatchResult) → List (Option MatchResult)) :
    (cfg.streaming = true →
      (search roots q cfg clock reorder).results = [] ∧
      (search roots q cfg clock reorder).stats.emitted =
        (search roots q cfg clock reorder).sink.length ∧
      ((search roots q cfg clock reorder).sink.map file_id).Nodup) ∧
    (cfg.streaming = false →
      (search roots q cfg clock reorder).sink = [] ∧
      (search roots q cfg clock reorder).stats.emitted =
        (search roots q cfg clock reorder).results.length) := by
  obtain ⟨st2, hinv, heq⟩ := search_final_state roots q cfg clock reorder
  obtain ⟨h1, h2, h3, -, -, h6, h7, -⟩ := hinv
  have hlen := congrArg List.length h2
  simp only [List.length_map, List.length_reverse, List.length_append,
    emissions] at hlen
  rw [heq]
  constructor
  · intro hstream
    refine ⟨h6 hstream, ?_, ?_⟩
    · show st2.emitted = st2.sink.length
      have hr := h6 hstream
      rw [hr] at hlen
      simp at hlen
      omega
    · show (st2.sink.map file_id).Nodup
      have hr := h6 hstream
      have h2s : (emissions st2).map file_id = st2.seen.reverse := h2
      rw [show emissions st2 = st2.results.map (·.path) ++ st2.sink from rfl, hr] at h2s
      simp only [List.map_nil, List.nil_append] at h2s
      rw [h2s]
      exact List.nodup_reverse.mpr h3
  · intro hstream
    refine ⟨h7 hstream, ?_⟩
    show st2.emitted = st2.results.length
    have hr := h7 hstream
    rw [hr] at hlen
    simp at hlen
    omega

/-! ### Idle-free run lemmas: `ReasonInv`, monotonicity and completeness -/

theorem drain_final_stopped (cfg : SearchCfg) (clock : Nat → Int)
    (L : List (Option MatchResult)) (st : SState) (h : st.stop_flag = true) :
    drain_final cfg clock L st = st := by
  cases L with
  | nil => rfl
  | cons f rest =>
    unfold drain_final
    rw [if_pos h]

/-- Everything a final drain guarantees: the invariants survive, the seen
set only grows, and if the drain ends without the stop flag then every
successful future it was handed has its identity recorded. -/
theorem drain_final_run (cfg : SearchCfg) (clock : Nat → Int) :
    ∀ (L : List (Option MatchResult)) (st : SState), MainInv cfg st → ReasonInv st →
      MainInv cfg (drain_final cfg clock L st) ∧
      ReasonInv (drain_final cfg clock L st) ∧
      (∀ i ∈ st.seen, i ∈ (drain_final cfg clock L st).seen) ∧
      ((drain_final cfg clock L st).stop_flag = false →
        ∀ f ∈ L, ∀ m, f = some m →
          file_id m.path ∈ (drain_final cfg clock L st).seen) := by
  intro L
  induction L with
  | nil =>
    intro st h hr
    exact ⟨h, hr, fun i hi => hi, fun _ f hf => absurd hf (List.not_mem_nil f)⟩
  | cons f rest ih =>
    intro st h hr
    unfold drain_final
    cases hsf : st.stop_flag with
    | true =>
      simp only [if_true]
      refine ⟨h, hr, fun i hi => hi, ?_⟩
      intro hc
      rw [hsf] at hc
      cases hc
    | false =>
      simp only [Bool.false_eq_true, if_false]
      cases f with
      | none =>
        obtain ⟨a1, a2, a3, a4⟩ := ih st h hr
        refine ⟨a1, a2, a3, ?_⟩
        intro hstop g hg m hm
        rcases List.mem_cons.mp hg with hg | hg
        · rw [hg] at hm
          cases hm
        · exact a4 hstop g hg m hm
      | some m =>
        try dsimp only
        obtain ⟨hm1, hmem, hmono, hfalse, htrue⟩ :=
          maybe_emit_inv cfg clock st m.path hsf h
        cases hb : (maybe_emit cfg clock st m.path).2 with
        | true =>
          simp only [if_true]
          obtain ⟨hsf2, hrea2⟩ := htrue hb
          have hr2 : ReasonInv (maybe_emit cfg clock st m.path).1 := by
            constructor
            · intro _
              rw [hrea2]
              exact hr.1 hsf
            · intro hc
              rw [hsf2] at hc
              cases hc
          obtain ⟨a1, a2, a3, a4⟩ := ih _ hm1 hr2
          refine ⟨a1, a2, fun i hi => a3 i (hmono i hi), ?_⟩
          intro hstop g hg m2 hm2
          rcases List.mem_cons.mp hg with hg | hg
          · rw [hg] at hm2
            injection hm2 with hm2
            rw [← hm2]
            exact a3 _ hmem
          · exact a4 hstop g hg m2 hm2
        | false =>
          simp only [Bool.false_eq_true, if_false]
          obtain ⟨hsf2, hrea2⟩ := hfalse hb
          refine ⟨hm1, ⟨?_, fun _ => hrea2⟩, hmono, ?_⟩
          · intro hc
            rw [hsf2] at hc
            cases hc
          · intro hc
            rw [hsf2] at hc
            cases hc

/-- The same guarantees for a batch drain (whose guard also watches for an
idle stop, which `ReasonInv` rules out). -/
theorem drain_batch_run (cfg : SearchCfg) (clock : Nat → Int) :
    ∀ (L : List (Option MatchResult)) (st : SState), MainInv cfg st → ReasonInv st →
      MainInv cfg (drain_batch cfg clock L st) ∧
      ReasonInv (drain_batch cfg clock L st) ∧
      (∀ i ∈ st.seen, i ∈ (drain_batch cfg clock L st).seen) ∧
      ((drain_batch cfg clock L st).stop_flag = false →
        ∀ f ∈ L, ∀ m, f = some m →
          file_id m.path ∈ (drain_batch cfg clock L st).seen) := by
  intro L
  induction L with
  | nil =>
    intro st h hr
    exact ⟨h, hr, fun i hi => hi, fun _ f hf => absurd hf (List.not_mem_nil f)⟩
  | cons f rest ih =>
    intro st h hr
    unfold drain_batch
    have hgd : (st.stop_flag || (st.stopped_reason == "idle_timeout")) = st.stop_flag := by
      rw [ReasonInv_not_idle hr, Bool.or_false]
    rw [hgd]
    cases hsf : st.stop_flag with
    | true =>
      simp only [if_true]
      refine ⟨h, hr, fun i hi => hi, ?_⟩
      intro hc
      rw [hsf] at hc
      cases hc
    | false =>
      simp only [Bool.false_eq_true, if_false]
      cases f with
      | none =>
        obtain ⟨a1, a2, a3, a4⟩ := ih st h hr
        refine ⟨a1, a2, a3, ?_⟩
        intro hstop g hg m hm
        rcases List.mem_cons.mp hg with hg | hg
        · rw [hg] at hm
          cases hm
        · exact a4 hstop g hg m hm
      | some m =>
        try dsimp only
        obtain ⟨hm1, hmem, hmono, hfalse, htrue⟩ :=
          maybe_emit_inv cfg clock st m.path hsf h
        cases hb : (maybe_emit cfg clock st m.path).2 with
        | true =>
          simp only [if_true]
          obtain ⟨hsf2, hrea2⟩ := htrue hb
          have hr2 : ReasonInv (maybe_emit cfg clock st m.path).1 := by
            constructor
            · intro _
              rw [hrea2]
              exact hr.1 hsf
            · intro hc
              rw [hsf2] at hc
              cases hc
          obtain ⟨a1, a2, a3, a4⟩ := ih _ hm1 hr2
          refine ⟨a1, a2, fun i hi => a3 i (hmono i hi), ?_⟩
          intro hstop g hg m2 hm2
          rcases List.mem_cons.mp hg with hg | hg
          · rw [hg] at hm2
            injection hm2 with hm2
            rw [← hm2]
            exact a3 _ hmem
          · exact a4 hstop g hg m2 hm2
        | false =>
          simp only [Bool.false_eq_true, if_false]
          obtain ⟨hsf2, hrea2⟩ := hfalse hb
          refine ⟨hm1, ⟨?_, fun _ => hrea2⟩, hmono, ?_⟩
          · intro hc
            rw [hsf2] at hc
            cases hc
          · intro hc
            rw [hsf2] at hc
            cases hc

/-- The same guarantees for the fast (inline) loop, when no idle timeout is
configured: if the loop ends without the stop flag, every candidate whose
evaluation succeeds has its identity recorded. -/
theorem fast_loop_run (cfg : SearchCfg) (q : ParsedQuery) (clock : Nat → Int)
    (hidle : cfg.idle_timeout_sec = none) :
    ∀ (l : List PFile) (st : SState), MainInv cfg st → ReasonInv st →
      MainInv cfg (fast_loop cfg q clock l st) ∧
      ReasonInv (fast_loop cfg q clock l st) ∧
      (∀ i ∈ st.seen, i ∈ (fast_loop cfg q clock l st).seen) ∧
      ((fast_loop cfg q clock l st).stop_flag = false →
        ∀ p ∈ l, ∀ r, eval_opts cfg false q p = some r →
          file_id r.path ∈ (fast_loop cfg q clock l st).seen) := by
  intro l
  induction l with
  | nil =>
    intro st h hr
    exact ⟨h, hr, fun i hi => hi, fun _ p hp => absurd hp (List.not_mem_nil p)⟩
  | cons p rest ih =>
    intro st h hr
    have hdl : st.idle_deadline = none := h.2.2.2.2.2.2.2 hidle
    have hto : timed_out clock st = (false, st) := timed_out_none clock st hdl
    unfold fast_loop
    dsimp only
    cases hsf : st.stop_flag with
    | true =>
      simp only [if_true]
      rw [hto]
      simp only [Bool.false_eq_true, if_false]
      refine ⟨h, hr, fun i hi => hi, ?_⟩
      intro hc
      rw [hsf] at hc
      cases hc
    | false =>
      simp only [Bool.false_eq_true, if_false]
      rw [hto]
      simp only [Bool.false_eq_true, if_false]
      cases hev : eval_opts cfg false q p with
      | none =>
        obtain ⟨a1, a2, a3, a4⟩ := ih st h hr
        refine ⟨a1, a2, a3, ?_⟩
        intro hstop p2 hp2 r hrr
        rcases List.mem_cons.mp hp2 with hp2 | hp2
        · rw [hp2, hev] at hrr
          cases hrr
        · exact a4 hstop p2 hp2 r hrr
      | some r =>
        try dsimp only
        obtain ⟨hm1, hmem, hmono, hfalse, htrue⟩ :=
          maybe_emit_inv cfg clock st r.path hsf h
        cases hb : (maybe_emit cfg clock st r.path).2 with
        | true =>
          simp only [if_true]
          obtain ⟨hsf2, hrea2⟩ := htrue hb
          have hr2 : ReasonInv (maybe_emit cfg clock st r.path).1 := by
            constructor
            · intro _
              rw [hrea2]
              exact hr.1 hsf
            · intro hc
              rw [hsf2] at hc
              cases hc
          obtain ⟨a1, a2, a3, a4⟩ := ih _ hm1 hr2
          refine ⟨a1, a2, fun i hi => a3 i (hmono i hi), ?_⟩
          intro hstop p2 hp2 r2 hrr
          rcases List.mem_cons.mp hp2 with hp2 | hp2
          · rw [hp2, hev] at hrr
            injection hrr with hrr
            rw [← hrr]
            exact a3 _ hmem
          · exact a4 hstop p2 hp2 r2 hrr
        | false =>
          simp only [Bool.false_eq_true, if_false]
          obtain ⟨hsf2, hrea2⟩ := hfalse hb
          refine ⟨hm1, ⟨?_, fun _ => hrea2⟩, hmono, ?_⟩
          · intro hc
            rw [hsf2] at hc
            cases hc
          · intro hc
            rw [hsf2] at hc
            cases hc

/-- The idle-free guarantees of the pooled submission loop: the invariants
survive, the seen set only grows, and if the loop ends without the stop flag
then every future — handed in pending or submitted for a candidate — was
either drained (its identity recorded) or is still pending in the returned
future list. -/
theorem pooled_loop_run (cfg : SearchCfg) (q : ParsedQuery) (clock : Nat → Int)
    (reorder : Nat → List (Option MatchResult) → List (Option MatchResult))
    (hidle : cfg.idle_timeout_sec = none)
    (hperm : ∀ n L, List.Perm (reorder n L) L) :
    ∀ (l : List PFile) (futures : List (Option MatchResult)) (dc : Nat) (st : SState),
      MainInv cfg st → ReasonInv st →
      MainInv cfg (pooled_loop cfg q clock reorder l futures dc st).1 ∧
      ReasonInv (pooled_loop cfg q clock reorder l futures dc st).1 ∧
      (∀ i ∈ st.seen, i ∈ (pooled_loop cfg q clock reorder l futures dc st).1.seen) ∧
      ((pooled_loop cfg q clock reorder l futures dc st).1.stop_flag = false →
        ∀ f ∈ futures ++ l.map (eval_opts cfg true q), ∀ m, f = some m →
          file_id m.path ∈ (pooled_loop cfg q clock reorder l futures dc st).1.seen ∨
          f ∈ (pooled_loop cfg q clock reorder l futures dc st).2.1) := by
  intro l
  induction l with
  | nil =>
    intro futures dc st h hr
    refine ⟨h, hr, fun i hi => hi, ?_⟩
    intro _ f hf m _
    right
    simp only [List.map_nil, List.append_nil] at hf
    exact hf
  | cons p rest ih =>
    intro futures dc st h hr
    have hdl : st.idle_deadline = none := h.2.2.2.2.2.2.2 hidle
    have hto : timed_out clock st = (false, st) := timed_out_none clock st hdl
    unfold pooled_loop
    try dsimp only
    cases hsf : st.stop_flag with
    | true =>
      simp only [if_true]
      rw [hto]
      try dsimp only
      simp only [Bool.false_eq_true, if_false]
      refine ⟨h, hr, fun i hi => hi, ?_⟩
      intro hc
      rw [hsf] at hc
      cases hc
    | false =>
      simp only [Bool.false_eq_true, if_false]
      rw [hto]
      try dsimp only
      simp only [Bool.false_eq_true, if_false]
      by_cases hlen : 2048 ≤ (futures ++ [eval_opts cfg true q p]).length
      · rw [if_pos hlen]
        try dsimp only
        rw [hto]
        try dsimp only
        simp only [Bool.false_eq_true, if_false]
        obtain ⟨b1, b2, b3, b4⟩ := drain_batch_run cfg clock
          (reorder dc (futures ++ [eval_opts cfg true q p])) st h hr
        have hgd : ((drain_batch cfg clock
              (reorder dc (futures ++ [eval_opts cfg true q p])) st).stop_flag ||
            ((drain_batch cfg clock
              (reorder dc (futures ++ [eval_opts cfg true q p])) st).stopped_reason ==
              "idle_timeout")) = (drain_batch cfg clock
              (reorder dc (futures ++ [eval_opts cfg true q p])) st).stop_flag := by
          rw [ReasonInv_not_idle b2, Bool.or_false]
        rw [hgd]
        cases hsf5 : (drain_batch cfg clock
            (reorder dc (futures ++ [eval_opts cfg true q p])) st).stop_flag with
        | true =>
          simp only [if_true]
          refine ⟨b1, b2, b3, ?_⟩
          intro hc
          rw [hsf5] at hc
          cases hc
        | false =>
          simp only [Bool.false_eq_true, if_false]
          obtain ⟨a1, a2, a3, a4⟩ := ih [] (dc + 1)
            (drain_batch cfg clock (reorder dc (futures ++ [eval_opts cfg true q p])) st)
            b1 b2
          refine ⟨a1, a2, fun i hi => a3 i (b3 i hi), ?_⟩
          intro hstop f hf m hm
          rw [List.map_cons] at hf
          rcases List.mem_append.mp hf with hf | hf
          · have hfv : f ∈ futures ++ [eval_opts cfg true q p] :=
              List.mem_append_left _ hf
            have hfr : f ∈ reorder dc (futures ++ [eval_opts cfg true q p]) :=
              ((hperm dc _).mem_iff).mpr hfv
            exact Or.inl (a3 _ (b4 hsf5 f hfr m hm))
          · rcases List.mem_cons.mp hf with hf | hf
            · have hfv : f ∈ futures ++ [eval_opts cfg true q p] := by
                rw [hf]
                exact List.mem_append_right _ (List.mem_singleton.mpr rfl)
              have hfr : f ∈ reorder dc (futures ++ [eval_opts cfg true q p]) :=
                ((hperm dc _).mem_iff).mpr hfv
              exact Or.inl (a3 _ (b4 hsf5 f hfr m hm))
            · refine a4 hstop f ?_ m hm
              simpa using hf
      · rw [if_neg hlen]
        rw [hto]
        try dsimp only
        simp only [Bool.false_eq_true, if_false]
        obtain ⟨a1, a2, a3, a4⟩ := ih (futures ++ [eval_opts cfg true q p]) dc st h hr
        refine ⟨a1, a2, a3, ?_⟩
        intro hstop f hf m hm
        refine a4 hstop f ?_ m hm
        rw [List.map_cons] at hf
        simp only [List.append_assoc, List.singleton_append]
        exact hf

/-- The deduplication identities of the candidates one run deems eligible:
those whose evaluation succeeds. -/
def elig_ids (cfg : SearchCfg) (q : ParsedQuery) (scan : Bool)
    (cands : List PFile) : List FileId :=
  cands.filterMap (fun p => (eval_opts cfg scan q p).map (fun r => file_id r.path))

theorem nodup_subset_length_le {α : Type} [DecidableEq α] {l1 l2 : List α}
    (h1 : l1.Nodup) (h2 : ∀ x ∈ l1, x ∈ l2) : l1.length ≤ l2.length := by
  have ha : l1.toFinset.card = l1.length := List.toFinset_card_of_nodup h1
  have hsub : l1.toFinset ⊆ l2.toFinset := by
    intro x hx
    simp only [List.mem_toFinset] at hx ⊢
    exact h2 x hx
  have hb := Finset.card_le_card hsub
  have hc := l2.toFinset_card_le
  omega

/-- An idle-free `search` call is `finish` of a final state satisfying both
invariants; if it ends without the stop flag, every eligible identity was
seen. -/
theorem search_run (roots : List RootDir) (q : ParsedQuery) (cfg : SearchCfg)
    (clock : Nat → Int)
    (reorder : Nat → List (Option MatchResult) → List (Option MatchResult))
    (hidle : cfg.idle_timeout_sec = none)
    (hperm : ∀ n L, List.Perm (reorder n L) L) :
    ∃ st : SState, MainInv cfg st ∧ ReasonInv st ∧
      search roots q cfg clock reorder = finish cfg clock (clock 0) st ∧
      (st.stop_flag = false →
        ∀ i ∈ elig_ids cfg q cfg.scan_content
            (iter_files roots cfg.exclude_dirs cfg.max_depth), i ∈ st.seen) := by
  unfold search
  try dsimp only
  cases hsc : cfg.scan_content with
  | false =>
    try dsimp only
    obtain ⟨a1, a2, a3, a4⟩ := fast_loop_run cfg q clock hidle
      (iter_files roots cfg.exclude_dirs cfg.max_depth) (init_state cfg (clock 0))
      (init_state_maininv cfg (clock 0)) (init_state_reasoninv cfg (clock 0))
    refine ⟨_, a1, a2, rfl, ?_⟩
    intro hstop i hi
    rcases List.mem_filterMap.mp hi with ⟨p, hp, hpe⟩
    cases hev : eval_opts cfg false q p with
    | none =>
      rw [hev] at hpe
      cases hpe
    | some r =>
      rw [hev] at hpe
      have hpe2 : some (file_id r.path) = some i := hpe
      injection hpe2 with hpe2
      rw [← hpe2]
      exact a4 hstop p hp r hev
  | true =>
    try dsimp only
    obtain ⟨b1, b2, b3, b4⟩ := pooled_loop_run cfg q clock reorder hidle hperm
      (iter_files roots cfg.exclude_dirs cfg.max_depth) [] 0 (init_state cfg (clock 0))
      (init_state_maininv cfg (clock 0)) (init_state_reasoninv cfg (clock 0))
    obtain ⟨c1, c2, c3, c4⟩ := drain_final_run cfg clock
      (reorder
        (pooled_loop cfg q clock reorder
          (iter_files roots cfg.exclude_dirs cfg.max_depth) [] 0
          (init_state cfg (clock 0))).2.2
        (pooled_loop cfg q clock reorder
          (iter_files roots cfg.exclude_dirs cfg.max_depth) [] 0
          (init_state cfg (clock 0))).2.1)
      (pooled_loop cfg q clock reorder
        (iter_files roots cfg.exclude_dirs cfg.max_depth) [] 0
        (init_state cfg (clock 0))).1 b1 b2
    refine ⟨_, c1, c2, rfl, ?_⟩
    intro hstop i hi
    have hres : (pooled_loop cfg q clock reorder
        (iter_files roots cfg.exclude_dirs cfg.max_depth) [] 0
        (init_state cfg (clock 0))).1.stop_flag = false := by
      rcases Bool.eq_false_or_eq_true ((pooled_loop cfg q clock reorder
          (iter_files roots cfg.exclude_dirs cfg.max_depth) [] 0
          (init_state cfg (clock 0))).1.stop_flag) with hx | hx
      · rw [drain_final_stopped cfg clock _ _ hx] at hstop
        rw [hx] at hstop
        cases hstop
      · exact hx
    rcases List.mem_filterMap.mp hi with ⟨p, hp, hpe⟩
    cases hev : eval_opts cfg true q p with
    | none =>
      rw [hev] at hpe
      cases hpe
    | some m =>
      rw [hev] at hpe
      have hpe2 : some (file_id m.path) = some i := hpe
      injection hpe2 with hpe2
      rw [← hpe2]
      have hf : some m ∈ ([] : List (Option MatchResult)) ++
          (iter_files roots cfg.exclude_dirs cfg.max_depth).map (eval_opts cfg true q) := by
        simp only [List.nil_append]
        exact hev ▸ List.mem_map_of_mem _ hp
      rcases b4 hres (some m) hf m rfl with hseen | hpend
      · exact c3 _ hseen
      · have hmem : some m ∈ reorder
            (pooled_loop cfg q clock reorder
              (iter_files roots cfg.exclude_dirs cfg.max_depth) [] 0
              (init_state cfg (clock 0))).2.2
            (pooled_loop cfg q clock reorder
              (iter_files roots cfg.exclude_dirs cfg.max_depth) [] 0
              (init_state cfg (clock 0))).2.1 :=
          ((hperm _ _).mem_iff).mpr hpend
        exact c4 hstop (some m) hmem m rfl

/-! ### C2: the limit stop -/

/-- C2: with no idle timeout configured and `limit ≥ 1`, a search over roots
containing more than `limit` distinct eligible matching identities emits
exactly `limit` results and reports `stopped_reason = "limit"` — on either
path, for any completion order of the pool. -/
theorem C2_limit_reached (roots : List RootDir) (q : ParsedQuery) (cfg : SearchCfg)
    (clock : Nat → Int)
    (reorder : Nat → List (Option MatchResult) → List (Option MatchResult))
    (hperm : ∀ n L, List.Perm (reorder n L) L)
    (hidle : cfg.idle_timeout_sec = none)
    (hlim : 1 ≤ cfg.limit)
    (hmany : cfg.limit <
      ((elig_ids cfg q cfg.scan_content
          (iter_files roots cfg.exclude_dirs cfg.max_depth)).dedup.length : Int)) :
    ((search roots q cfg clock reorder).stats.emitted : Int) = cfg.limit ∧
    (search roots q cfg clock reorder).stats.stopped_reason = "limit" := by
  obtain ⟨st, hinv, hrea, heq, hcomp⟩ := search_run roots q cfg clock reorder hidle hperm
  obtain ⟨h1, h2, h3, h4, h5, h6, h7, h8⟩ := hinv
  have hmax : max 1 cfg.limit = cfg.limit := max_eq_right hlim
  cases hsf : st.stop_flag with
  | false =>
    exfalso
    have hsub : ∀ i ∈ (elig_ids cfg q cfg.scan_content
        (iter_files roots cfg.exclude_dirs cfg.max_depth)).dedup, i ∈ st.seen := by
      intro i hi
      exact hcomp hsf i (List.mem_dedup.mp hi)
    have hle := nodup_subset_length_le (List.nodup_dedup _) hsub
    rw [← h1] at hle
    rw [hmax] at h4
    omega
  | true =>
    have hemit : (st.emitted : Int) = cfg.limit := by
      rw [← hmax]
      exact h5.mp hsf
    refine ⟨?_, ?_⟩
    · rw [heq]
      exact hemit
    · rw [heq]
      exact hrea.2 hsf

def c2_fileA : PFile :=
  ⟨"a1.txt", "a1", ".txt", some ⟨1, 1, 3⟩, some [], some "a", some "/r/a1.txt", "/r/a1.txt"⟩

def c2_fileB : PFile :=
  ⟨"a2.txt", "a2", ".txt", some ⟨1, 2, 3⟩, some [], some "a", some "/r/a2.txt", "/r/a2.txt"⟩

def c2_roots : List RootDir := [⟨true, true, elist [.efile c2_fileA, .efile c2_fileB]⟩]

def c2_query : ParsedQuery := ⟨[], [], [], ["a"], false⟩

def c2_cfg : SearchCfg := { scan_content := false, limit := 1, idle_timeout_sec := none }

/-- Witness for C2: two distinct matching files, limit one. -/
theorem C2_limit_reached_witness :
    (1 : Int) ≤ c2_cfg.limit ∧
    c2_cfg.limit <
      ((elig_ids c2_cfg c2_query c2_cfg.scan_content
          (iter_files c2_roots c2_cfg.exclude_dirs c2_cfg.max_depth)).dedup.length : Int) ∧
    ((search c2_roots c2_query c2_cfg (fun i => (i : Int))
        (fun _ l => l)).stats.emitted : Int) = c2_cfg.limit ∧
    (search c2_roots c2_query c2_cfg (fun i => (i : Int))
        (fun _ l => l)).stats.stopped_reason = "limit" :=
  ⟨by decide, by decide,
    C2_limit_reached c2_roots c2_query c2_cfg (fun i => (i : Int)) (fun _ l => l)
      (fun _ L => List.Perm.refl L) rfl (by decide) (by decide)⟩

/-! ### C10: a non-positive limit -/

/-- C10: with `limit ≤ 0`, the stop comparison uses `max 1 limit = 1`: from
a running state with nothing emitted, the first fresh emission returns
`False` with the counter at one, the stop flag up and reason `"limit"`; and
no search call with a non-positive limit ever emits more than one result. -/
theorem C10_nonpositive_limit (cfg : SearchCfg) (clock : Nat → Int) (st : SState)
    (p : PFile) (roots : List RootDir) (q : ParsedQuery) (cfg2 : SearchCfg)
    (clock2 : Nat → Int)
    (reorder : Nat → List (Option MatchResult) → List (Option MatchResult))
    (hlim : cfg.limit ≤ 0) (hst : st.stop_flag = false) (hinv : MainInv cfg st)
    (hemit : st.emitted = 0) (hfresh : file_id p ∉ st.seen)
    (hlim2 : cfg2.limit ≤ 0) :
    max 1 cfg.limit = 1 ∧
    (maybe_emit cfg clock st p).2 = false ∧
    (maybe_emit cfg clock st p).1.emitted = 1 ∧
    (maybe_emit cfg clock st p).1.stop_flag = true ∧
    (maybe_emit cfg clock st p).1.stopped_reason = "limit" ∧
    (search roots q cfg2 clock2 reorder).stats.emitted ≤ 1 := by
  obtain ⟨h1, h2, h3, h4, h5, h6, h7, h8⟩ := hinv
  have hmax : max 1 cfg.limit = 1 := max_eq_left (by omega)
  obtain ⟨e1, e2, e3, e4, e5, e6, e7, e8⟩ := emit_step_spec cfg clock st p ⟨h6, h7⟩
  have hcap : max 1 cfg.limit ≤ ((emit_step cfg clock st p).emitted : Int) := by
    rw [hmax, e2, hemit]
    simp
  rw [maybe_emit_fresh_eq cfg clock st p hfresh, if_pos hcap]
  rw [hemit] at e2
  refine ⟨hmax, rfl, e2, rfl, rfl, ?_⟩
  obtain ⟨st2, hinv2, heq⟩ := search_final_state roots q cfg2 clock2 reorder
  rw [heq]
  have h4b := hinv2.2.2.2.1
  have hmax2 : max 1 cfg2.limit = 1 := max_eq_left (by omega)
  show st2.emitted ≤ 1
  rw [hmax2] at h4b
  omega

def c10_cfg : SearchCfg := { scan_content := false, limit := 0, idle_timeout_sec := none }

def c10_file : PFile :=
  ⟨"b.txt", "b", ".txt", some ⟨1, 9, 3⟩, some [], some "b", some "/b", "/b"⟩

/-- Witness for C10: a zero limit stops on the very first emission. -/
theorem C10_nonpositive_limit_witness :
    max 1 c10_cfg.limit = 1 ∧
    (maybe_emit c10_cfg (fun i => (i : Int)) (init_state c10_cfg 0) c10_file).2 = false ∧
    (maybe_emit c10_cfg (fun i => (i : Int)) (init_state c10_cfg 0) c10_file).1.emitted = 1 ∧
    (maybe_emit c10_cfg (fun i => (i : Int)) (init_state c10_cfg 0) c10_file).1.stop_flag = true ∧
    (maybe_emit c10_cfg (fun i => (i : Int)) (init_state c10_cfg 0)
      c10_file).1.stopped_reason = "limit" ∧
    (search [] ⟨[], [], [], [], false⟩ c10_cfg (fun i => (i : Int))
      (fun _ l => l)).stats.emitted ≤ 1 :=
  C10_nonpositive_limit c10_cfg (fun i => (i : Int)) (init_state c10_cfg 0) c10_file
    [] ⟨[], [], [], [], false⟩ c10_cfg (fun i => (i : Int)) (fun _ l => l)
    (by decide) rfl (init_state_maininv c10_cfg 0) rfl (by decide) (by decide)

/-! ### C5: idle timeout and the statistics block -/

def c5_fileA : PFile :=
  ⟨"i1.txt", "i1", ".txt", some ⟨1, 11, 3⟩, some [], some "i", some "/r/i1.txt", "/r/i1.txt"⟩

def c5_fileB : PFile :=
  ⟨"i2.txt", "i2", ".txt", some ⟨1, 12, 3⟩, some [], some "i", some "/r/i2.txt", "/r/i2.txt"⟩

def c5_roots : List RootDir := [⟨true, true, elist [.efile c5_fileA, .efile c5_fileB]⟩]

def c5_query : ParsedQuery := ⟨[], [], [], ["i"], false⟩

def c5_cfg : SearchCfg := { scan_content := true, limit := 1, idle_timeout_sec := some 5 }

/-- A clock under which the idle deadline (start `0` + `5`) has elapsed by
the time the second candidate is considered. -/
def c5_clock : Nat → Int := fun i => if i ≤ 2 then 0 else 10

/-- C5 counterexample: with `idle_timeout_sec = 5 > 0` and a clock that
jumps past the idle deadline before the second candidate, the pooled
submission loop itself stops for idleness with nothing emitted — the
claimed premise holds — yet the pending future submitted for the first
candidate is still drained afterwards (the final drain checks only the stop
event), the match is emitted, the cap `limit = 1` is reached, and the call
reports `stopped_reason = "limit"` with `idle_time_sec = 0`, not
`"idle_timeout"` with the elapsed idle gap. -/
theorem C5_counterexample :
    c5_cfg.idle_timeout_sec = some 5 ∧ (0 : Int) < 5 ∧
    (init_state c5_cfg (c5_clock 0)).idle_deadline = some 5 ∧
    (pooled_loop c5_cfg c5_query c5_clock (fun _ l => l)
      (iter_files c5_roots c5_cfg.exclude_dirs c5_cfg.max_depth) [] 0
      (init_state c5_cfg (c5_clock 0))).1.stopped_reason = "idle_timeout" ∧
    (pooled_loop c5_cfg c5_query c5_clock (fun _ l => l)
      (iter_files c5_roots c5_cfg.exclude_dirs c5_cfg.max_depth) [] 0
      (init_state c5_cfg (c5_clock 0))).1.emitted = 0 ∧
    (search c5_roots c5_query c5_cfg c5_clock (fun _ l => l)).stats.stopped_reason =
      "limit" ∧
    (search c5_roots c5_query c5_cfg c5_clock (fun _ l => l)).stats.emitted = 1 ∧
    (search c5_roots c5_query c5_cfg c5_clock (fun _ l => l)).stats.idle_time_sec = 0 := by
  decide

/-- C5 (amended): in the fast inline path an elapsed idle deadline at the
loop head does stop the search at once with reason `"idle_timeout"`;
`reset_idle_timer` arms the deadline at the emission time plus the
configured timeout; and the closing statistics block always reports
`wall_time_sec` as end minus start, reports `idle_time_sec = 0` whenever
the final reason is not `"idle_timeout"`, and otherwise reports the gap
from the last recorded emission (the call's start when none, or when the
recorded instant is the falsy `0`) to the end. -/
theorem C5_idle_semantics (cfg : SearchCfg) (q : ParsedQuery) (clock : Nat → Int)
    (p : PFile) (l : List PFile) (st st2 : SState) (tstart : Int)
    (hsf : st.stop_flag = false)
    (hto1 : (timed_out clock st).1 = true)
    (hto2 : (timed_out clock (timed_out clock st).2).1 = true) :
    fast_loop cfg q clock (p :: l) st =
      { (timed_out clock (timed_out clock st).2).2 with stopped_reason := "idle_timeout" } ∧
    (∀ T, cfg.idle_timeout_sec = some T → 0 < T →
      (reset_idle_timer cfg clock st2).idle_deadline =
        some (clock st2.clock_idx + T)) ∧
    (finish cfg clock tstart st2).stats.wall_time_sec = clock st2.clock_idx - tstart ∧
    (st2.stopped_reason ≠ "idle_timeout" →
      (finish cfg clock tstart st2).stats.idle_time_sec = 0) ∧
    (st2.stopped_reason = "idle_timeout" →
      (finish cfg clock tstart st2).stats.idle_time_sec =
        max 0 (clock st2.clock_idx -
          (match st2.last_emit_time with
           | some v => if v == 0 then tstart else v
           | none => tstart))) := by
  refine ⟨?_, ?_, rfl, ?_, ?_⟩
  · unfold fast_loop
    dsimp only
    rw [hsf]
    simp only [Bool.false_eq_true, if_false]
    rw [hto1, hto2]
    rfl
  · intro T hT hTpos
    unfold reset_idle_timer
    dsimp only
    rw [hT]
    dsimp only
    rw [if_pos hTpos]
  · intro h
    have hb : (st2.stopped_reason == "idle_timeout") = false := beq_eq_false_iff_ne.mpr h
    unfold finish
    dsimp only
    rw [hb]
    rfl
  · intro h
    have hb : (st2.stopped_reason == "idle_timeout") = true := beq_iff_eq.mpr h
    unfold finish
    dsimp only
    rw [hb]
    rfl

def c5w_state : SState := ⟨[], [], [], 0, "complete", some 5, none, false, 0⟩

def c5w_stats_state : SState := ⟨[], [], [], 0, "idle_timeout", some 5, none, false, 7⟩

def c5w_clock : Nat → Int := fun _ => 10

/-- Witness for the amended C5 at a concrete elapsed-deadline state. -/
theorem C5_idle_semantics_witness :
    fast_loop c5_cfg c5_query c5w_clock [c5_fileA] c5w_state =
      { (timed_out c5w_clock (timed_out c5w_clock c5w_state).2).2 with stopped_reason := "idle_timeout" } ∧
    (∀ T, c5_cfg.idle_timeout_sec = some T → 0 < T →
      (reset_idle_timer c5_cfg c5w_clock c5w_stats_state).idle_deadline =
        some (c5w_clock c5w_stats_state.clock_idx + T)) ∧
    (finish c5_cfg c5w_clock 0 c5w_stats_state).stats.wall_time_sec =
      c5w_clock c5w_stats_state.clock_idx - 0 ∧
    (c5w_stats_state.stopped_reason ≠ "idle_timeout" →
      (finish c5_cfg c5w_clock 0 c5w_stats_state).stats.idle_time_sec = 0) ∧
    (c5w_stats_state.stopped_reason = "idle_timeout" →
      (finish c5_cfg c5w_clock 0 c5w_stats_state).stats.idle_time_sec =
        max 0 (c5w_clock c5w_stats_state.clock_idx -
          (match c5w_stats_state.last_emit_time with
           | some v => if v == 0 then (0 : Int) else v
           | none => (0 : Int)))) :=
  C5_idle_semantics c5_cfg c5_query c5w_clock c5_fileA [] c5w_state c5w_stats_state 0
    rfl (by decide) (by decide)

end Pathfinder
